import Mathlib

/-! Mapfile resolution and parameter normalisation of mapwrap-go: a shallow embedding
of `map.go`.

* Go strings are modelled by Lean `String`s (sequences of Unicode scalar values).
* A Go `map[string][]string` whose iteration order is held fixed is modelled by an
  association list: the order of the list is the order in which `range` produces the
  entries.  Lookups take the first entry with a given key.
* Run-time panics (index out of range) are modelled by `none`.
* `strings.ToUpper` and `strings.ToLower` belong to the Go standard library, not to
  this program; they are parameters of the definitions that call them.
-/

namespace MapWrap

/-! ## Library functions used by the program -/

/-- Scanning loop behind `strings.Split(s, ":")`: `cur` holds the current segment,
reversed. -/
def splitAux (sep : Char) : List Char → List Char → List (List Char)
  | cur, [] => [cur.reverse]
  | cur, c :: cs =>
    if c = sep then cur.reverse :: splitAux sep [] cs else splitAux sep (c :: cur) cs

/-- Go `strings.Split(s, sep)` for a separator of one character. -/
def strings_Split (s : String) (sep : Char) : List String :=
  (splitAux sep [] s.data).map String.mk

/-- Go slice expression `s[lo:hi]`, which panics unless `0 ≤ lo ≤ hi ≤ len(s)`.
The bounds are integers because `len(s) - 1` may be negative. -/
def goSlice (s : List String) (lo hi : Int) : Option (List String) :=
  if 0 ≤ lo ∧ lo ≤ hi ∧ hi ≤ (s.length : Int) then
    some ((s.take hi.toNat).drop lo.toNat)
  else none

/-- Go index expression `s[i]`, which panics when `i` is out of range. -/
def goIndex (s : List String) (i : Nat) : Option String := s.get? i

/-! ## `Map` and `Map.Mapfile` -/

/-- The `Map` struct.  `Aliases` is a Go map; the list order is its iteration order. -/
structure Map where
  Name : String
  Projections : List String
  Aliases : List (String × List String)
  Path : String

/-- The expression `srs[len(srs)-1 : len(srs)][0]` where `srs := strings.Split(proj, ":")`. -/
def Map.srid (proj : String) : Option String :=
  let srs := strings_Split proj ':'
  (goSlice srs ((srs.length : Int) - 1) (srs.length : Int)).bind (fun s => goIndex s 0)

/-- Inner loop `for _, alias := range aliases { if alias == srid { srid = projection } }`. -/
def Map.aliasInner (projection : String) (aliases : List String) (srid : String) : String :=
  aliases.foldl (fun srid a => if a = srid then projection else srid) srid

/-- Outer loop `for projection, aliases := range m.Aliases { ... }`, in list order. -/
def Map.aliasLoop (aliases : List (String × List String)) (srid : String) : String :=
  aliases.foldl (fun srid e => Map.aliasInner e.1 e.2 srid) srid

/-- The loop `for _, p := range m.Projections { if p == srid { return ... } }` followed by
the final `return`; `fmt.Sprintf` with `%s` verbs is string concatenation. -/
def Map.projLoop (name srid : String) : List String → String
  | [] => name ++ ".map"
  | p :: ps => if p = srid then name ++ "_" ++ srid ++ ".map" else Map.projLoop name srid ps

/-- `func (m Map) Mapfile(proj string) string`. -/
def Map.Mapfile (m : Map) (proj : String) : Option String :=
  (Map.srid proj).map (fun srid => Map.projLoop m.Name (Map.aliasLoop m.Aliases srid) m.Projections)

/-! ## `url.Values` -/

/-- Go `url.Values`, a `map[string][]string`. -/
abbrev Values := List (String × List String)

/-- The map index expression `v[key]`; `none` when the key is absent. -/
def Values.lookup : Values → String → Option (List String)
  | [], _ => none
  | (k, vs) :: rest, key => if k = key then some vs else Values.lookup rest key

/-- `func (v Values) Get(key string) string`: the first value of `key`, or `""`. -/
def Values.Get (v : Values) (key : String) : String :=
  match Values.lookup v key with
  | some (x :: _) => x
  | _ => ""

/-- `func (v Values) Del(key string)`: `delete(v, key)`. -/
def Values.Del (v : Values) (key : String) : Values :=
  v.filter (fun e => decide (e.1 ≠ key))

/-- `func (v Values) Set(key, value string)`: `v[key] = []string{value}`. -/
def Values.Set (v : Values) (key value : String) : Values :=
  (key, [value]) :: Values.Del v key

/-! ## `normalizeKeys` and `invalidException` -/

/-- One iteration of the body of `normalizeKeys` at the key `param`.  An entry that is no
longer in the map when its turn comes is not produced by `range`; `values` is read from
the map at that moment, and `values[0]` panics on an empty list. -/
def normalizeKeys.visit (normalFunc : String → String) (v : Values) (param : String) :
    Option Values :=
  match Values.lookup v param with
  | none => some v
  | some values =>
    (goIndex values 0).map (fun x => Values.Set (Values.Del v param) (normalFunc param) x)

/-- `func normalizeKeys(v url.Values, normalFunc func(string) string)`.

`order` is the sequence of keys that `range v` reaches.  Go produces every entry that is in
the map when the loop starts unless it is removed before being reached, and may or may not
produce an entry created during the loop; so a run of the loop is an `order` that contains
every key of `v`, and it may contain further keys. -/
def normalizeKeys (normalFunc : String → String) : List String → Values → Option Values
  | [], v => some v
  | param :: rest, v =>
    (normalizeKeys.visit normalFunc v param).bind (normalizeKeys normalFunc rest)

/-- `var exceptions = []string{"blank", "image", "xml"}`. -/
def exceptions : List String := ["blank", "image", "xml"]

/-- The loop of `invalidException` over a list of allowed values. -/
def invalidException.loop (ToLower : String → String) (value : String) : List String → Bool
  | [] => true
  | e :: es => if ToLower value = e then false else invalidException.loop ToLower value es

/-- `func invalidException(value string) bool`. -/
def invalidException (ToLower : String → String) (value : String) : Bool :=
  invalidException.loop ToLower value exceptions

/-! ## The parameter normalisation of `serveMap` -/

/-- Lines 76 to 93 of `serveMap`: the steps applied to `r.Form` after a successful
`ParseForm` and before the form is encoded into `QUERY_STRING`.  `ToUpper` and `ToLower`
stand for `strings.ToUpper` and `strings.ToLower`; `order` is the order in which the
loop of `normalizeKeys` reaches the keys. -/
def serveMapForm (ToUpper ToLower : String → String) (m : Map) (order : List String)
    (form : Values) : Option Values :=
  (normalizeKeys ToUpper order form).bind fun v1 =>
    let v2 := if Values.Get v1 "REQUEST" = "" then Values.Set v1 "REQUEST" "GetCapabilities"
      else v1
    let v3 := if Values.Get v2 "SERVICE" = "" then Values.Set v2 "SERVICE" "WMS" else v2
    let v4 := Values.Del v3 "MAP"
    (m.Mapfile (Values.Get v4 "SRS")).map fun mapfile =>
      let v5 := Values.Set v4 "MAP" mapfile
      if invalidException ToLower (Values.Get v5 "EXCEPTIONS") = true then
        Values.Set v5 "EXCEPTIONS" "xml"
      else v5

/-! ## `Map.UrlPath` -/

/-- Go `strings.HasPrefix(s, head)`: `len(s) >= len(head) && s[:len(head)] == head`. -/
def strings_HasPrefix (s head : String) : Bool :=
  decide (head.data.length ≤ s.data.length ∧ s.data.take head.data.length = head.data)

/-- Go `strings.HasSuffix(s, tail)`:
`len(s) >= len(tail) && s[len(s)-len(tail):] == tail`. -/
def strings_HasSuffix (s tail : String) : Bool :=
  decide (tail.data.length ≤ s.data.length ∧
    s.data.drop (s.data.length - tail.data.length) = tail.data)

/-- `func (m Map) UrlPath() string`. -/
def Map.UrlPath (m : Map) : String :=
  let p := m.Path
  let p := if p = "" then m.Name else p
  let p := if strings_HasPrefix p "/" = false then "/" ++ p else p
  let p := if strings_HasSuffix p "/" = false then p ++ "/" else p
  p

/-! ## `serveMap` over an explicit response, log and gateway state -/

/-- What `serveMap` reads from the `*http.Request`: the method, the `Origin` header, and
the outcome of `r.ParseForm()`, namely the form it stores in `r.Form` and whether it
returns an error. -/
structure Request where
  Method : String
  Origin : String
  Form : Values
  ParseErr : Bool

/-- The `http.ResponseWriter`: the header map, the status written (`none` until a status
is written) and the body written so far. -/
structure ResponseWriter where
  Header : Values
  Status : Option Nat
  Body : String

/-- The arguments `status` and `size` that a log line is built from by
`buildCommonLogFormat`; the other fields of the line come from the request and the
clock. -/
structure LogRecord where
  status : Nat
  size : Nat
deriving DecidableEq

/-- The `cgi.Handler` literal built by `serveMap`. -/
structure Handler where
  Path : String
  Dir : String
  Env : List String
deriving DecidableEq

/-- Everything `serveMap` acts on: the response writer, the lines sent to the logger, the
request form `r.Form` (`none` before `ParseForm` is called) and the handlers that were
served, in order. -/
structure ServeState where
  w : ResponseWriter
  log : List LogRecord
  Form : Option Values
  served : List Handler

/-- `w.Header().Set(key, value)`; the keys used by the program are in canonical form. -/
def ResponseWriter.HeaderSet (w : ResponseWriter) (key value : String) : ResponseWriter :=
  { w with Header := Values.Set w.Header key value }

/-- `w.WriteHeader(code)`: the first status written is the status of the response. -/
def ResponseWriter.WriteHeader (w : ResponseWriter) (code : Nat) : ResponseWriter :=
  match w.Status with
  | none => { w with Status := some code }
  | some _ => w

/-- `io.WriteString(w, s)`: writes status 200 first when no status was written. -/
def ResponseWriter.WriteString (w : ResponseWriter) (s : String) : ResponseWriter :=
  let w := ResponseWriter.WriteHeader w 200
  { w with Body := w.Body ++ s }

/-- `func addCORSHeaders(w http.ResponseWriter, r *http.Request)`. -/
def addCORSHeaders (w : ResponseWriter) (r : Request) : ResponseWriter :=
  let w := w.HeaderSet "Access-Control-Allow-Origin" r.Origin
  let w := w.HeaderSet "Access-Control-Allow-Methods" "GET, OPTIONS"
  let w := w.HeaderSet "Access-Control-Allow-Headers"
    "Authorization,Content-Type,Accept,Origin,User-Agent,DNT,Cache-Control,X-Mx-ReqToken,Keep-Alive,X-Requested-With,If-Modified-Since"
  w.HeaderSet "Access-Control-Max-Age" "1728000"

/-- `func (m Map) serveMap(w http.ResponseWriter, r *http.Request)`.

`Encode` stands for `url.Values.Encode`, `Directory` for `config.Directory` and `ServeHTTP`
for what `cgi.Handler.ServeHTTP` does to the response; `order` is the order in which the
loop of `normalizeKeys` reaches the keys. -/
def serveMap (ToUpper ToLower : String → String) (Encode : Values → String)
    (Directory : String) (ServeHTTP : Handler → ResponseWriter → ResponseWriter)
    (m : Map) (order : List String) (r : Request) (s : ServeState) : Option ServeState :=
  if r.Method = "OPTIONS" then
    let w := addCORSHeaders s.w r
    let w := w.WriteHeader 204
    some { s with w := w, log := s.log ++ [⟨204, 0⟩] }
  else if r.ParseErr = true then
    let log := s.log ++ [⟨404, 0⟩]
    let w := s.w.WriteString "400"
    some { s with w := w, log := log, Form := some r.Form }
  else
    (serveMapForm ToUpper ToLower m order r.Form).map fun form =>
      let queryString := "QUERY_STRING=" ++ Encode form
      let handler : Handler := ⟨"/usr/bin/mapserv", Directory, [queryString]⟩
      let w := addCORSHeaders s.w r
      let w := ServeHTTP handler w
      { w := w, log := s.log ++ [⟨200, 0⟩], Form := some form,
        served := s.served ++ [handler] }

/-- The state in which a handler is entered: nothing written, logged or served. -/
def ServeState.init : ServeState := ⟨⟨[], none, ""⟩, [], none, []⟩

/-! ## Concrete case mappings for worked examples -/

/-- `strings.ToUpper` restricted to what it does on ASCII text. -/
def asciiToUpper (s : String) : String := ⟨s.data.map Char.toUpper⟩

/-- `strings.ToLower` restricted to what it does on ASCII text. -/
def asciiToLower (s : String) : String := ⟨s.data.map Char.toLower⟩

/-- The map of the worked examples. -/
def world : Map := ⟨"world", ["3857"], [("3857", ["900913"])], ""⟩

/-! ## Lemmas on `strings.Split` and the final segment -/

theorem splitAux_ne_nil (sep : Char) (l cur : List Char) : splitAux sep cur l ≠ [] := by
  induction l generalizing cur with
  | nil => simp [splitAux]
  | cons c cs ih =>
    unfold splitAux
    split
    · simp
    · exact ih _

theorem getLast?_cons_of_ne_nil {α : Type} (x : α) (l : List α) (h : l ≠ []) :
    (x :: l).getLast? = l.getLast? := by
  cases l with
  | nil => exact absurd rfl h
  | cons y ys => simp [List.getLast?_cons_cons]

/-- Everything before the last separator is irrelevant to the last segment. -/
theorem getLast?_splitAux_append (sep : Char) (pre code cur : List Char) :
    (splitAux sep cur (pre ++ sep :: code)).getLast? = (splitAux sep [] code).getLast? := by
  induction pre generalizing cur with
  | nil =>
    simp only [List.nil_append, splitAux, if_true]
    exact getLast?_cons_of_ne_nil _ _ (splitAux_ne_nil _ _ _)
  | cons c cs ih =>
    simp only [List.cons_append, splitAux]
    split
    · rw [getLast?_cons_of_ne_nil _ _ (splitAux_ne_nil _ _ _)]
      exact ih _
    · exact ih _

theorem splitAux_of_not_mem (sep : Char) (code cur : List Char) (h : sep ∉ code) :
    splitAux sep cur code = [cur.reverse ++ code] := by
  induction code generalizing cur with
  | nil => simp [splitAux]
  | cons c cs ih =>
    have hc : c ≠ sep := fun e => h (by simp [e])
    have hcs : sep ∉ cs := fun e => h (by simp [e])
    simp only [splitAux, if_neg hc]
    rw [ih _ hcs]
    simp

/-- The slice-and-index expression of `Mapfile` yields the last element of the slice. -/
theorem slice_index_of_getLast? (srs : List String) (x : String)
    (h : srs.getLast? = some x) :
    (goSlice srs ((srs.length : Int) - 1) (srs.length : Int)).bind (fun s => goIndex s 0)
      = some x := by
  obtain ⟨init, rfl⟩ : ∃ init, srs = init ++ [x] := by
    rcases List.getLast?_eq_some_iff.mp h with ⟨ys, hys⟩
    exact ⟨ys, hys⟩
  have hlen : ((init ++ [x]).length : Int) - 1 = (init.length : Int) := by
    simp
  have hcond : 0 ≤ (init.length : Int) ∧ (init.length : Int) ≤ ((init ++ [x]).length : Int)
      ∧ ((init ++ [x]).length : Int) ≤ ((init ++ [x]).length : Int) := by
    refine ⟨by omega, ?_, le_refl _⟩
    simp
  rw [hlen]
  simp only [goSlice, if_pos hcond, Option.some_bind, goIndex, Int.toNat_ofNat]
  simp

theorem srid_eq_getLast? (proj : String) :
    Map.srid proj = ((splitAux ':' [] proj.data).getLast?).map String.mk := by
  have hne := splitAux_ne_nil ':' proj.data []
  obtain ⟨x, hx⟩ : ∃ x, (splitAux ':' [] proj.data).getLast? = some x := by
    cases h : (splitAux ':' [] proj.data).getLast? with
    | none => exact absurd (List.getLast?_eq_none_iff.mp h) hne
    | some x => exact ⟨x, rfl⟩
  have h2 : (strings_Split proj ':').getLast? = some (String.mk x) := by
    simp [strings_Split, List.getLast?_map, hx]
  rw [hx]
  exact slice_index_of_getLast? _ _ h2

/-- The index expression of `Mapfile` never panics. -/
theorem srid_total (proj : String) : ∃ c, Map.srid proj = some c := by
  rw [srid_eq_getLast?]
  cases h : (splitAux ':' [] proj.data).getLast? with
  | none => exact absurd (List.getLast?_eq_none_iff.mp h) (splitAux_ne_nil _ _ _)
  | some x => exact ⟨String.mk x, rfl⟩

theorem srid_of_no_colon (code : String) (h : ':' ∉ code.data) :
    Map.srid code = some code := by
  rw [srid_eq_getLast?, splitAux_of_not_mem _ _ _ h]
  simp

theorem srid_append_colon (pre code : String) :
    Map.srid (pre ++ ":" ++ code) = Map.srid code := by
  rw [srid_eq_getLast?, srid_eq_getLast?]
  have : (pre ++ ":" ++ code).data = pre.data ++ ':' :: code.data := by
    simp [String.data_append]
  rw [this, getLast?_splitAux_append]

/-! ## Lemmas on the alias loops and the projection loop -/

theorem aliasInner_nil (p c : String) : Map.aliasInner p [] c = c := rfl

theorem aliasInner_cons (p a c : String) (as : List String) :
    Map.aliasInner p (a :: as) c = Map.aliasInner p as (if a = c then p else c) := rfl

/-- Once the identifier equals the projection, the inner loop leaves it alone. -/
theorem aliasInner_fix (p : String) (as : List String) : Map.aliasInner p as p = p := by
  induction as with
  | nil => rfl
  | cons a as ih => rw [aliasInner_cons]; simpa using ih

theorem aliasInner_of_not_mem (p c : String) (as : List String) (h : c ∉ as) :
    Map.aliasInner p as c = c := by
  induction as with
  | nil => rfl
  | cons a as ih =>
    have ha : a ≠ c := fun e => h (by simp [e])
    rw [aliasInner_cons, if_neg ha]
    exact ih (fun e => h (by simp [e]))

theorem aliasInner_of_mem (p c : String) (as : List String) (h : c ∈ as) :
    Map.aliasInner p as c = p := by
  induction as with
  | nil => simp at h
  | cons a as ih =>
    rw [aliasInner_cons]
    by_cases ha : a = c
    · rw [if_pos ha]; exact aliasInner_fix p as
    · rw [if_neg ha]
      rcases List.mem_cons.mp h with e | e
      · exact absurd e.symm ha
      · exact ih e

theorem aliasLoop_nil (c : String) : Map.aliasLoop [] c = c := rfl

theorem aliasLoop_cons (e : String × List String) (al : List (String × List String))
    (c : String) : Map.aliasLoop (e :: al) c = Map.aliasLoop al (Map.aliasInner e.1 e.2 c) :=
  rfl

theorem aliasLoop_append (l1 l2 : List (String × List String)) (c : String) :
    Map.aliasLoop (l1 ++ l2) c = Map.aliasLoop l2 (Map.aliasLoop l1 c) := by
  simp [Map.aliasLoop, List.foldl_append]

/-- An identifier that is in no alias list passes through the alias loop unchanged. -/
theorem aliasLoop_of_not_mem (al : List (String × List String)) (c : String)
    (h : ∀ e ∈ al, c ∉ e.2) : Map.aliasLoop al c = c := by
  induction al with
  | nil => rfl
  | cons e al ih =>
    rw [aliasLoop_cons, aliasInner_of_not_mem _ _ _ (h e (by simp))]
    exact ih (fun x hx => h x (by simp [hx]))

/-- An identifier `p` that is an alias only in entries whose key is `p` is stable. -/
theorem aliasLoop_stable (al : List (String × List String)) (p : String)
    (h : ∀ e ∈ al, p ∈ e.2 → e.1 = p) : Map.aliasLoop al p = p := by
  induction al with
  | nil => rfl
  | cons e al ih =>
    have hin : Map.aliasInner e.1 e.2 p = p := by
      by_cases hm : p ∈ e.2
      · rw [aliasInner_of_mem _ _ _ hm]; exact h e (by simp) hm
      · exact aliasInner_of_not_mem _ _ _ hm
    rw [aliasLoop_cons, hin]
    exact ih (fun x hx => h x (by simp [hx]))

/-- The first entry that lists `c` decides, when its key is not an alias further on. -/
theorem aliasLoop_first (pre post : List (String × List String)) (p c : String)
    (as : List String) (hpre : ∀ e ∈ pre, c ∉ e.2) (hmem : c ∈ as)
    (hpost : ∀ e ∈ post, p ∉ e.2) : Map.aliasLoop (pre ++ (p, as) :: post) c = p := by
  rw [aliasLoop_append, aliasLoop_of_not_mem pre c hpre, aliasLoop_cons,
    aliasInner_of_mem _ _ _ hmem]
  exact aliasLoop_of_not_mem post p hpost

/-- If every entry that lists `c` has key `p`, and `p` is listed only under `p`, the
loop resolves `c` to `p` wherever the entries stand. -/
theorem aliasLoop_unique (al : List (String × List String)) (p c : String)
    (hex : ∃ e ∈ al, c ∈ e.2) (honly : ∀ e ∈ al, c ∈ e.2 → e.1 = p)
    (hp : ∀ e ∈ al, p ∈ e.2 → e.1 = p) : Map.aliasLoop al c = p := by
  induction al with
  | nil => obtain ⟨e, he, _⟩ := hex; simp at he
  | cons e al ih =>
    rw [aliasLoop_cons]
    by_cases hm : c ∈ e.2
    · rw [aliasInner_of_mem _ _ _ hm, honly e (by simp) hm]
      exact aliasLoop_stable al p (fun x hx => hp x (by simp [hx]))
    · rw [aliasInner_of_not_mem _ _ _ hm]
      refine ih ?_ (fun x hx => honly x (by simp [hx])) (fun x hx => hp x (by simp [hx]))
      obtain ⟨x, hx, hcx⟩ := hex
      rcases List.mem_cons.mp hx with rfl | hx
      · exact absurd hcx hm
      · exact ⟨x, hx, hcx⟩

theorem projLoop_of_mem (name srid : String) (ps : List String) (h : srid ∈ ps) :
    Map.projLoop name srid ps = name ++ "_" ++ srid ++ ".map" := by
  induction ps with
  | nil => simp at h
  | cons q ps ih =>
    unfold Map.projLoop
    by_cases hq : q = srid
    · rw [if_pos hq]
    · rw [if_neg hq]
      rcases List.mem_cons.mp h with e | e
      · exact absurd e.symm hq
      · exact ih e

theorem projLoop_of_not_mem (name srid : String) (ps : List String) (h : srid ∉ ps) :
    Map.projLoop name srid ps = name ++ ".map" := by
  induction ps with
  | nil => rfl
  | cons q ps ih =>
    have hq : q ≠ srid := fun e => h (by simp [e])
    unfold Map.projLoop
    rw [if_neg hq]
    exact ih (fun e => h (by simp [e]))

/-- The two forms of file name are never the same string. -/
theorem mapfile_forms_ne (name c : String) : name ++ "_" ++ c ++ ".map" ≠ name ++ ".map" := by
  intro h
  have hd := congrArg String.data h
  simp only [String.data_append, List.append_assoc] at hd
  have := List.append_cancel_left hd
  simp at this

theorem Mapfile_eq (m : Map) (t c : String) (hc : Map.srid t = some c) :
    m.Mapfile t = some (Map.projLoop m.Name (Map.aliasLoop m.Aliases c) m.Projections) := by
  simp [Map.Mapfile, hc]

/-! ## Lemmas on `url.Values` -/

theorem lookup_nil (j : String) : Values.lookup [] j = none := rfl

theorem lookup_cons (k j : String) (vs : List String) (v : Values) :
    Values.lookup ((k, vs) :: v) j = if k = j then some vs else Values.lookup v j := rfl

theorem lookup_Del (v : Values) (k j : String) :
    Values.lookup (Values.Del v k) j = if j = k then none else Values.lookup v j := by
  induction v with
  | nil => simp [Values.Del, lookup_nil]
  | cons e v ih =>
    obtain ⟨a, vs⟩ := e
    by_cases hak : a = k
    · have : Values.Del ((a, vs) :: v) k = Values.Del v k := by
        simp [Values.Del, hak]
      rw [this, ih, lookup_cons]
      by_cases hjk : j = k
      · simp [hjk]
      · have : a ≠ j := fun e => hjk (e ▸ hak)
        simp [hjk, this]
    · have : Values.Del ((a, vs) :: v) k = (a, vs) :: Values.Del v k := by
        simp [Values.Del, hak]
      rw [this, lookup_cons, lookup_cons, ih]
      by_cases haj : a = j
      · have : j ≠ k := fun e => hak (haj.trans e)
        simp [haj, this]
      · simp [haj]

theorem lookup_Set (v : Values) (k x j : String) :
    Values.lookup (Values.Set v k x) j = if j = k then some [x] else Values.lookup v j := by
  unfold Values.Set
  rw [lookup_cons, lookup_Del]
  by_cases h : j = k
  · simp [h]
  · have : k ≠ j := fun e => h e.symm
    simp [h, this]

theorem lookup_mem (v : Values) (k : String) (vs : List String)
    (h : Values.lookup v k = some vs) : (k, vs) ∈ v := by
  induction v with
  | nil => simp [lookup_nil] at h
  | cons e v ih =>
    obtain ⟨a, ws⟩ := e
    rw [lookup_cons] at h
    by_cases ha : a = k
    · rw [if_pos ha] at h
      cases h
      simp [ha]
    · rw [if_neg ha] at h
      exact List.mem_cons_of_mem _ (ih h)

theorem lookup_none_of_forall (v : Values) (k : String) (h : ∀ e ∈ v, e.1 ≠ k) :
    Values.lookup v k = none := by
  cases hl : Values.lookup v k with
  | none => rfl
  | some vs => exact absurd rfl (h _ (lookup_mem v k vs hl))

theorem Get_congr (v w : Values) (k : String) (h : Values.lookup v k = Values.lookup w k) :
    Values.Get v k = Values.Get w k := by
  simp [Values.Get, h]

theorem Get_of_lookup_none (v : Values) (k : String) (h : Values.lookup v k = none) :
    Values.Get v k = "" := by
  simp [Values.Get, h]

theorem Get_of_lookup_cons (v : Values) (k x : String) (xs : List String)
    (h : Values.lookup v k = some (x :: xs)) : Values.Get v k = x := by
  simp [Values.Get, h]

theorem mem_of_mem_Del (v : Values) (k : String) (e : String × List String)
    (h : e ∈ Values.Del v k) : e ∈ v := by
  unfold Values.Del at h
  exact (List.mem_filter.mp h).1

theorem mem_Set (v : Values) (k x : String) (e : String × List String)
    (h : e ∈ Values.Set v k x) : e = (k, [x]) ∨ e ∈ v := by
  unfold Values.Set at h
  rcases List.mem_cons.mp h with h | h
  · exact Or.inl h
  · exact Or.inr (mem_of_mem_Del v k e h)

/-! ## Lemmas on `normalizeKeys` -/

theorem visit_of_none (f : String → String) (v : Values) (k : String)
    (h : Values.lookup v k = none) : normalizeKeys.visit f v k = some v := by
  simp [normalizeKeys.visit, h]

theorem visit_of_cons (f : String → String) (v : Values) (k x : String) (xs : List String)
    (h : Values.lookup v k = some (x :: xs)) :
    normalizeKeys.visit f v k = some (Values.Set (Values.Del v k) (f k) x) := by
  simp [normalizeKeys.visit, h, goIndex]

/-- What one iteration does to the map, seen through lookups. -/
theorem lookup_visit (f : String → String) (v : Values) (k x j : String) :
    Values.lookup (Values.Set (Values.Del v k) (f k) x) j
      = if j = f k then some [x] else if j = k then none else Values.lookup v j := by
  rw [lookup_Set, lookup_Del]

/-- The two ways an iteration can go on a map whose value lists are non-empty. -/
theorem visit_cases (f : String → String) (v : Values) (k : String)
    (hne : ∀ e ∈ v, e.2 ≠ []) :
    (Values.lookup v k = none ∧ normalizeKeys.visit f v k = some v) ∨
    (∃ x xs, Values.lookup v k = some (x :: xs) ∧
      normalizeKeys.visit f v k = some (Values.Set (Values.Del v k) (f k) x)) := by
  cases hl : Values.lookup v k with
  | none => exact Or.inl ⟨rfl, visit_of_none f v k hl⟩
  | some vs =>
    cases vs with
    | nil => exact absurd rfl (hne (k, []) (lookup_mem v k [] hl))
    | cons x xs => exact Or.inr ⟨x, xs, rfl, visit_of_cons f v k x xs hl⟩

theorem nonEmpty_Del (v : Values) (k : String) (hne : ∀ e ∈ v, e.2 ≠ []) :
    ∀ e ∈ Values.Del v k, e.2 ≠ [] :=
  fun e he => hne e (mem_of_mem_Del v k e he)

theorem nonEmpty_Set (v : Values) (k x : String) (hne : ∀ e ∈ v, e.2 ≠ []) :
    ∀ e ∈ Values.Set v k x, e.2 ≠ [] := by
  intro e he
  rcases mem_Set v k x e he with rfl | h
  · simp
  · exact hne e h

theorem nonEmpty_visit (f : String → String) (v : Values) (k x : String)
    (hne : ∀ e ∈ v, e.2 ≠ []) :
    ∀ e ∈ Values.Set (Values.Del v k) (f k) x, e.2 ≠ [] :=
  nonEmpty_Set _ _ _ (nonEmpty_Del v k hne)

/-- Invariant rule for the loop of `normalizeKeys`: on a map whose value lists are
non-empty the loop returns, and a property of (remaining keys, map) that every iteration
preserves holds at the end. -/
theorem normalizeKeys_invariant (f : String → String) (Inv : List String → Values → Prop)
    (hskip : ∀ k rest v, Inv (k :: rest) v → Values.lookup v k = none → Inv rest v)
    (hstep : ∀ k rest v x xs, Inv (k :: rest) v → Values.lookup v k = some (x :: xs) →
      Inv rest (Values.Set (Values.Del v k) (f k) x))
    (order : List String) (v : Values) (hne : ∀ e ∈ v, e.2 ≠ []) (h0 : Inv order v) :
    ∃ r, normalizeKeys f order v = some r ∧ (∀ e ∈ r, e.2 ≠ []) ∧ Inv [] r := by
  induction order generalizing v with
  | nil => exact ⟨v, rfl, hne, h0⟩
  | cons k rest ih =>
    rcases visit_cases f v k hne with ⟨hl, hv⟩ | ⟨x, xs, hl, hv⟩
    · obtain ⟨r, hr, hner, hinv⟩ := ih v hne (hskip k rest v h0 hl)
      exact ⟨r, by simp [normalizeKeys, hv, hr], hner, hinv⟩
    · obtain ⟨r, hr, hner, hinv⟩ := ih _ (nonEmpty_visit f v k x hne)
        (hstep k rest v x xs h0 hl)
      exact ⟨r, by simp [normalizeKeys, hv, hr], hner, hinv⟩

/-- The loop of `normalizeKeys` returns on every parsed form. -/
theorem normalizeKeys_total (f : String → String) (order : List String) (v : Values)
    (hne : ∀ e ∈ v, e.2 ≠ []) :
    ∃ r, normalizeKeys f order v = some r ∧ (∀ e ∈ r, e.2 ≠ []) := by
  obtain ⟨r, hr, hner, _⟩ := normalizeKeys_invariant f (fun _ _ => True)
    (fun _ _ _ _ _ => trivial) (fun _ _ _ _ _ _ _ => trivial) order v hne trivial
  exact ⟨r, hr, hner⟩

/-- A key that is not in the image of `f` and is reached whenever it is present is gone
after the loop. -/
theorem normalizeKeys_lookup_of_not_fixed (f : String → String)
    (hidem : ∀ s, f (f s) = f s) (k : String) (hk : f k ≠ k) (order : List String)
    (v : Values) (hne : ∀ e ∈ v, e.2 ≠ []) (hord : Values.lookup v k ≠ none → k ∈ order) :
    ∃ r, normalizeKeys f order v = some r ∧ (∀ e ∈ r, e.2 ≠ []) ∧
      Values.lookup r k = none := by
  refine Exists.imp ?_ (normalizeKeys_invariant f
    (fun rest w => Values.lookup w k ≠ none → k ∈ rest) ?_ ?_ order v hne hord)
  · rintro r ⟨hr, hner, hinv⟩
    refine ⟨hr, hner, ?_⟩
    by_contra hc
    simpa using hinv hc
  · intro j rest w hinv hl hpres
    rcases List.mem_cons.mp (hinv hpres) with e | e
    · exact absurd (e ▸ hl) hpres
    · exact e
  · intro j rest w x xs hinv _ hpres
    rw [lookup_visit] at hpres
    have h1 : k ≠ f j := fun e => hk (by rw [e, hidem])
    rw [if_neg h1] at hpres
    by_cases h2 : k = j
    · rw [if_pos h2] at hpres; exact absurd rfl hpres
    · rw [if_neg h2] at hpres
      rcases List.mem_cons.mp (hinv hpres) with e | e
      · exact absurd e h2
      · exact e

/-- When exactly one key `k0` of the form has normal form `T`, the loop leaves `T` bound
to the first value of `k0`, whatever the order. -/
theorem normalizeKeys_lookup_of_unique (f : String → String)
    (hidem : ∀ s, f (f s) = f s) (T k0 x : String) (xs : List String)
    (order : List String) (v : Values) (hne : ∀ e ∈ v, e.2 ≠ [])
    (hk0 : Values.lookup v k0 = some (x :: xs)) (hup : f k0 = T)
    (huniq : ∀ e ∈ v, f e.1 = T → e.1 = k0) (hord : k0 ∈ order) :
    ∃ r, normalizeKeys f order v = some r ∧ (∀ e ∈ r, e.2 ≠ []) ∧
      Values.lookup r T = some [x] := by
  have hT : f T = T := by rw [← hup, hidem]
  refine Exists.imp ?_ (normalizeKeys_invariant f
    (fun rest w =>
      (k0 ∈ rest ∧ (∃ ys, Values.lookup w k0 = some (x :: ys)) ∧
        ∀ j, f j = T → j ≠ k0 → Values.lookup w j = none) ∨
      (Values.lookup w T = some [x] ∧ ∀ j, f j = T → j ≠ T → Values.lookup w j = none))
    ?_ ?_ order v hne ?_)
  · rintro r ⟨hr, hner, hinv⟩
    refine ⟨hr, hner, ?_⟩
    rcases hinv with ⟨h, _⟩ | ⟨h, _⟩
    · simp at h
    · exact h
  · intro k rest w hinv hl
    rcases hinv with ⟨hmem, ⟨ys, hys⟩, hoth⟩ | h
    · refine Or.inl ⟨?_, ⟨ys, hys⟩, hoth⟩
      rcases List.mem_cons.mp hmem with e | e
      · rw [e, hl] at hys; cases hys
      · exact e
    · exact Or.inr h
  · intro k rest w y ys hinv hl
    rcases hinv with ⟨hmem, ⟨zs, hzs⟩, hoth⟩ | ⟨hTw, hoth⟩
    · by_cases hk : k = k0
      · subst hk
        rw [hzs] at hl
        cases hl
        refine Or.inr ⟨?_, ?_⟩
        · rw [lookup_visit, hup]; simp
        · intro j hj hjT
          rw [lookup_visit, hup, if_neg hjT]
          by_cases hjk : j = k
          · rw [if_pos hjk]
          · rw [if_neg hjk]; exact hoth j hj hjk
      · have hfk : f k ≠ T := by
          intro e
          rw [hoth k e hk] at hl
          cases hl
        refine Or.inl ⟨?_, ⟨zs, ?_⟩, ?_⟩
        · rcases List.mem_cons.mp hmem with e | e
          · exact absurd e.symm hk
          · exact e
        · have h1 : k0 ≠ f k := fun e => hfk (by rw [← hup, e, hidem])
          have h2 : k0 ≠ k := fun e => hk e.symm
          rw [lookup_visit, if_neg h1, if_neg h2]
          exact hzs
        · intro j hj hjk0
          have h1 : j ≠ f k := fun e => hfk (by rw [← hj, e, hidem])
          rw [lookup_visit, if_neg h1]
          by_cases hjk : j = k
          · rw [if_pos hjk]
          · rw [if_neg hjk]; exact hoth j hj hjk0
    · by_cases hfk : f k = T
      · have hkT : k = T := by
          by_contra hne2
          rw [hoth k hfk hne2] at hl
          cases hl
        subst hkT
        rw [hTw] at hl
        cases hl
        refine Or.inr ⟨?_, ?_⟩
        · rw [lookup_visit, hT]; simp
        · intro j hj hjT
          rw [lookup_visit, hT, if_neg hjT, if_neg hjT]
          exact hoth j hj hjT
      · have hkT : T ≠ k := fun e => hfk (by rw [← e, hT])
        refine Or.inr ⟨?_, ?_⟩
        · rw [lookup_visit, if_neg (fun e => hfk e.symm), if_neg hkT]
          exact hTw
        · intro j hj hjT
          have h1 : j ≠ f k := fun e => hfk (by rw [← hj, e, hidem])
          rw [lookup_visit, if_neg h1]
          by_cases hjk : j = k
          · rw [if_pos hjk]
          · rw [if_neg hjk]; exact hoth j hj hjT
  · refine Or.inl ⟨hord, ⟨xs, hk0⟩, ?_⟩
    intro j hj hjk0
    cases hl : Values.lookup v j with
    | none => rfl
    | some vs => exact absurd (huniq (j, vs) (lookup_mem v j vs hl) hj) hjk0

/-- When no key of the form has normal form `T`, the loop leaves `T` unbound. -/
theorem normalizeKeys_lookup_of_absent (f : String → String)
    (hidem : ∀ s, f (f s) = f s) (T : String) (order : List String) (v : Values)
    (hne : ∀ e ∈ v, e.2 ≠ []) (hnone : ∀ e ∈ v, f e.1 ≠ T)
    (hcover : ∀ e ∈ v, e.1 ∈ order) :
    ∃ r, normalizeKeys f order v = some r ∧ (∀ e ∈ r, e.2 ≠ []) ∧
      Values.lookup r T = none := by
  refine Exists.imp ?_ (normalizeKeys_invariant f
    (fun rest w => (∀ j, f j = T → Values.lookup w j = none) ∧
      (Values.lookup w T ≠ none → T ∈ rest)) ?_ ?_ order v hne ?_)
  · rintro r ⟨hr, hner, hinv⟩
    refine ⟨hr, hner, ?_⟩
    by_contra hc
    simpa using hinv.2 hc
  · intro k rest w hinv hl
    refine ⟨hinv.1, fun hpres => ?_⟩
    rcases List.mem_cons.mp (hinv.2 hpres) with e | e
    · exact absurd (e ▸ hl) hpres
    · exact e
  · intro k rest w y ys hinv hl
    have hfk : f k ≠ T := by
      intro e
      rw [hinv.1 k e] at hl
      cases hl
    refine ⟨?_, ?_⟩
    · intro j hj
      have h1 : j ≠ f k := fun e => hfk (by rw [← hj, e, hidem])
      rw [lookup_visit, if_neg h1]
      by_cases hjk : j = k
      · rw [if_pos hjk]
      · rw [if_neg hjk]; exact hinv.1 j hj
    · intro hpres
      rw [lookup_visit, if_neg (fun e => hfk e.symm)] at hpres
      by_cases hTk : T = k
      · rw [if_pos hTk] at hpres; exact absurd rfl hpres
      · rw [if_neg hTk] at hpres
        rcases List.mem_cons.mp (hinv.2 hpres) with e | e
        · exact absurd e hTk
        · exact e
  · refine ⟨?_, ?_⟩
    · intro j hj
      cases hl : Values.lookup v j with
      | none => rfl
      | some vs => exact absurd hj (hnone (j, vs) (lookup_mem v j vs hl))
    · intro hpres
      cases hl : Values.lookup v T with
      | none => exact absurd hl hpres
      | some vs => exact hcover (T, vs) (lookup_mem v T vs hl)

theorem normalizeKeys_cons (f : String → String) (k : String) (rest : List String)
    (v : Values) :
    normalizeKeys f (k :: rest) v = (normalizeKeys.visit f v k).bind (normalizeKeys f rest) :=
  rfl

theorem normalizeKeys_cons_of_visit (f : String → String) (k : String) (rest : List String)
    (v w : Values) (h : normalizeKeys.visit f v k = some w) :
    normalizeKeys f (k :: rest) v = normalizeKeys f rest w := by
  rw [normalizeKeys_cons, h]; rfl

theorem eq_of_exists_some {α : Type} {o : Option α} {P : α → Prop}
    (h : ∃ r, o = some r ∧ P r) {r : α} (hr : o = some r) : P r := by
  obtain ⟨r0, h0, hP⟩ := h
  rw [h0] at hr
  cases hr
  exact hP

/-- Keys whose normal form is `T` do not influence what the loop does to the other keys:
dropping them from the order, and changing them in the map, leaves the rest of the result
as it was. -/
theorem normalizeKeys_agree (f : String → String) (hidem : ∀ s, f (f s) = f s) (T : String)
    (order : List String) (v w : Values) (hv : ∀ e ∈ v, e.2 ≠ []) (hw : ∀ e ∈ w, e.2 ≠ [])
    (hag : ∀ k, f k ≠ T → Values.lookup v k = Values.lookup w k) :
    ∃ r r2, normalizeKeys f order v = some r ∧
      normalizeKeys f (order.filter (fun k => decide (f k ≠ T))) w = some r2 ∧
      ∀ k, f k ≠ T → Values.lookup r k = Values.lookup r2 k := by
  induction order generalizing v w with
  | nil => exact ⟨v, w, rfl, rfl, hag⟩
  | cons k rest ih =>
    by_cases hk : f k = T
    · have hfil : (k :: rest).filter (fun k => decide (f k ≠ T))
          = rest.filter (fun k => decide (f k ≠ T)) := by
        simp [List.filter_cons, hk]
      rw [hfil]
      rcases visit_cases f v k hv with ⟨_, hvis⟩ | ⟨x, xs, _, hvis⟩
      · obtain ⟨r, r2, h1, h2, h3⟩ := ih v w hv hw hag
        exact ⟨r, r2, by rw [normalizeKeys_cons_of_visit f k rest _ _ hvis, h1], h2, h3⟩
      · obtain ⟨r, r2, h1, h2, h3⟩ := ih _ w (nonEmpty_visit f v k x hv) hw (by
          intro j hj
          have h1 : j ≠ f k := fun e => hj (by rw [e, hidem, hk])
          have h2 : j ≠ k := fun e => hj (by rw [e, hk])
          rw [lookup_visit, if_neg h1, if_neg h2]
          exact hag j hj)
        exact ⟨r, r2, by rw [normalizeKeys_cons_of_visit f k rest _ _ hvis, h1], h2, h3⟩
    · have hfil : (k :: rest).filter (fun k => decide (f k ≠ T))
          = k :: rest.filter (fun k => decide (f k ≠ T)) := by
        simp [List.filter_cons, hk]
      rw [hfil]
      have hkk := hag k hk
      rcases visit_cases f v k hv with ⟨hl, hvis⟩ | ⟨x, xs, hl, hvis⟩
      · have hvis2 := visit_of_none f w k (hkk ▸ hl)
        obtain ⟨r, r2, h1, h2, h3⟩ := ih v w hv hw hag
        exact ⟨r, r2, by rw [normalizeKeys_cons_of_visit f k rest _ _ hvis, h1],
          by rw [normalizeKeys_cons_of_visit f k _ _ _ hvis2, h2], h3⟩
      · have hvis2 := visit_of_cons f w k x xs (hkk ▸ hl)
        obtain ⟨r, r2, h1, h2, h3⟩ := ih _ _ (nonEmpty_visit f v k x hv)
          (nonEmpty_visit f w k x hw) (by
            intro j hj
            rw [lookup_visit, lookup_visit, hag j hj])
        exact ⟨r, r2, by rw [normalizeKeys_cons_of_visit f k rest _ _ hvis, h1],
          by rw [normalizeKeys_cons_of_visit f k _ _ _ hvis2, h2], h3⟩

/-! ## Lemmas on `invalidException` and on the steps after `normalizeKeys` -/

theorem invalidException_eq_false_iff (ToLower : String → String) (value : String) :
    invalidException ToLower value = false ↔
      (ToLower value = "blank" ∨ ToLower value = "image" ∨ ToLower value = "xml") := by
  unfold invalidException exceptions
  simp only [invalidException.loop]
  by_cases h1 : ToLower value = "blank"
  · simp [h1]
  · by_cases h2 : ToLower value = "image"
    · simp [h2]
    · by_cases h3 : ToLower value = "xml"
      · simp [h3]
      · simp [h1, h2, h3]

theorem Mapfile_total (m : Map) (t : String) : ∃ r, m.Mapfile t = some r := by
  obtain ⟨c, hc⟩ := srid_total t
  exact ⟨_, Mapfile_eq m t c hc⟩

/-- The steps of `serveMap` that follow `normalizeKeys` never fail, and this is the map
they produce, key by key, from the map `v1` that `normalizeKeys` leaves. -/
theorem serveMapForm_lookup (ToUpper ToLower : String → String) (m : Map)
    (order : List String) (form v1 : Values) (h : normalizeKeys ToUpper order form = some v1) :
    ∃ mapfile out, m.Mapfile (Values.Get v1 "SRS") = some mapfile ∧
      serveMapForm ToUpper ToLower m order form = some out ∧
      ∀ k, Values.lookup out k =
        if k = "EXCEPTIONS" then
          (if invalidException ToLower (Values.Get v1 "EXCEPTIONS") = true then some ["xml"]
            else Values.lookup v1 "EXCEPTIONS")
        else if k = "MAP" then some [mapfile]
        else if k = "SERVICE" then
          (if Values.Get v1 "SERVICE" = "" then some ["WMS"] else Values.lookup v1 "SERVICE")
        else if k = "REQUEST" then
          (if Values.Get v1 "REQUEST" = "" then some ["GetCapabilities"]
            else Values.lookup v1 "REQUEST")
        else Values.lookup v1 k := by
  obtain ⟨mapfile, hmf⟩ := Mapfile_total m (Values.Get v1 "SRS")
  have l2 : ∀ k, Values.lookup (if Values.Get v1 "REQUEST" = "" then
      Values.Set v1 "REQUEST" "GetCapabilities" else v1) k =
      if k = "REQUEST" then (if Values.Get v1 "REQUEST" = "" then some ["GetCapabilities"]
        else Values.lookup v1 "REQUEST") else Values.lookup v1 k := by
    intro k
    by_cases hr : Values.Get v1 "REQUEST" = ""
    · simp only [if_pos hr, lookup_Set]
    · simp only [if_neg hr]
      by_cases hk : k = "REQUEST"
      · simp [hk]
      · simp [hk]
  generalize hv2 : (if Values.Get v1 "REQUEST" = "" then
      Values.Set v1 "REQUEST" "GetCapabilities" else v1) = v2 at l2
  have g2 : Values.Get v2 "SERVICE" = Values.Get v1 "SERVICE" :=
    Get_congr _ _ _ (by rw [l2]; simp)
  have l3 : ∀ k, Values.lookup (if Values.Get v2 "SERVICE" = "" then
      Values.Set v2 "SERVICE" "WMS" else v2) k =
      if k = "SERVICE" then (if Values.Get v1 "SERVICE" = "" then some ["WMS"]
        else Values.lookup v1 "SERVICE") else Values.lookup v2 k := by
    intro k
    rw [g2]
    by_cases hr : Values.Get v1 "SERVICE" = ""
    · simp only [if_pos hr, lookup_Set]
    · simp only [if_neg hr]
      by_cases hk : k = "SERVICE"
      · rw [if_pos hk, hk, l2]; simp
      · simp [hk]
  generalize hv3 : (if Values.Get v2 "SERVICE" = "" then
      Values.Set v2 "SERVICE" "WMS" else v2) = v3 at l3
  have g4 : Values.Get (Values.Del v3 "MAP") "SRS" = Values.Get v1 "SRS" :=
    Get_congr _ _ _ (by rw [lookup_Del, l3, l2]; simp)
  have g5 : Values.Get (Values.Set (Values.Del v3 "MAP") "MAP" mapfile) "EXCEPTIONS"
      = Values.Get v1 "EXCEPTIONS" :=
    Get_congr _ _ _ (by rw [lookup_Set, lookup_Del, l3, l2]; simp)
  refine ⟨mapfile, if invalidException ToLower (Values.Get v1 "EXCEPTIONS") = true then
    Values.Set (Values.Set (Values.Del v3 "MAP") "MAP" mapfile) "EXCEPTIONS" "xml"
    else Values.Set (Values.Del v3 "MAP") "MAP" mapfile, hmf, ?_, ?_⟩
  · simp only [serveMapForm, h, Option.some_bind, hv2, hv3, g4, hmf, Option.map_some', g5]
  · intro k
    by_cases he : invalidException ToLower (Values.Get v1 "EXCEPTIONS") = true
    · simp only [if_pos he, lookup_Set, lookup_Del, l3, l2]
      by_cases k1 : k = "EXCEPTIONS"
      · simp [k1]
      · by_cases k2 : k = "MAP"
        · simp [k2]
        · simp [k1, k2]
    · simp only [if_neg he, lookup_Set, lookup_Del, l3, l2]
      by_cases k1 : k = "EXCEPTIONS"
      · simp [k1]
      · by_cases k2 : k = "MAP"
        · simp [k2]
        · simp [k1, k2]

/-! ## The ASCII case mappings -/

theorem toNat_ofNat_sub (n : Nat) (h1 : 97 ≤ n) (h2 : n ≤ 122) :
    (Char.ofNat (n - 32)).toNat = n - 32 := by
  interval_cases n <;> rfl

theorem toUpper_toUpper (c : Char) : c.toUpper.toUpper = c.toUpper := by
  unfold Char.toUpper
  simp only []
  split
  · rename_i h
    rw [if_neg]
    rw [toNat_ofNat_sub _ h.1 h.2]
    omega
  · rfl

theorem asciiToUpper_idem (s : String) : asciiToUpper (asciiToUpper s) = asciiToUpper s := by
  have h : Char.toUpper ∘ Char.toUpper = Char.toUpper := funext toUpper_toUpper
  simp [asciiToUpper, h]

/-- After the loop, a target key is bound to the first value of the one key of the form
that has it as normal form, and is unbound when there is no such key. -/
theorem normalizeKeys_target (f : String → String) (hidem : ∀ s, f (f s) = f s) (T : String)
    (order : List String) (form : Values) (hparsed : ∀ e ∈ form, e.2 ≠ [])
    (hcover : ∀ e ∈ form, e.1 ∈ order)
    (huniq : ∀ e1 ∈ form, ∀ e2 ∈ form, f e1.1 = T → f e2.1 = T → e1.1 = e2.1)
    (v1 : Values) (h : normalizeKeys f order form = some v1) :
    (∀ k s vs, Values.lookup form k = some (s :: vs) → f k = T →
      Values.lookup v1 T = some [s]) ∧
    ((∀ e ∈ form, f e.1 ≠ T) → Values.lookup v1 T = none) := by
  refine ⟨?_, ?_⟩
  · intro k s vs hk hup
    have hmem := lookup_mem form k (s :: vs) hk
    have := normalizeKeys_lookup_of_unique f hidem T k s vs order form hparsed hk hup
      (fun e he hfe => huniq e he (k, s :: vs) hmem hfe hup) (hcover _ hmem)
    exact (eq_of_exists_some this h).2
  · intro hnone
    have := normalizeKeys_lookup_of_absent f hidem T order form hparsed hnone hcover
    exact (eq_of_exists_some this h).2


/-! ## The claims -/

/-- C1: for every map and all strings `pre` and `code` where `code` has no colon,
`Mapfile(pre + ":" + code)` returns the same string as `Mapfile(code)`; the identifier
taken from the token is `code`, the segment after the last colon. -/
theorem Mapfile_last_segment_only (m : Map) (pre code : String) (hcode : ':' ∉ code.data) :
    Map.srid (pre ++ ":" ++ code) = some code ∧
    ∃ r, m.Mapfile code = some r ∧ m.Mapfile (pre ++ ":" ++ code) = some r := by
  have h1 : Map.srid (pre ++ ":" ++ code) = some code := by
    rw [srid_append_colon]; exact srid_of_no_colon code hcode
  refine ⟨h1, _, Mapfile_eq m code code (srid_of_no_colon code hcode), ?_⟩
  exact Mapfile_eq m _ code h1

theorem Mapfile_last_segment_only_witness :
    Map.srid ("EPSG" ++ ":" ++ "900913") = some "900913" ∧
    ∃ r, world.Mapfile "900913" = some r ∧ world.Mapfile ("EPSG" ++ ":" ++ "900913") = some r :=
  Mapfile_last_segment_only world "EPSG" "900913" (by decide)

/-- C2: when the final segment `c` of the token is in no alias list of the map, the
identifier passes through alias resolution unchanged, and `Mapfile` returns
`Name + "_" + c + ".map"` if and only if `c` is in `Projections`, and `Name + ".map"`
otherwise. -/
theorem Mapfile_of_unaliased (m : Map) (t c : String) (hc : Map.srid t = some c)
    (hno : ∀ e ∈ m.Aliases, c ∉ e.2) :
    Map.aliasLoop m.Aliases c = c ∧
    (m.Mapfile t = some (m.Name ++ "_" ++ c ++ ".map") ↔ c ∈ m.Projections) ∧
    (c ∉ m.Projections → m.Mapfile t = some (m.Name ++ ".map")) := by
  have hloop := aliasLoop_of_not_mem m.Aliases c hno
  have hm := Mapfile_eq m t c hc
  rw [hloop] at hm
  refine ⟨hloop, ⟨?_, ?_⟩, ?_⟩
  · intro h
    by_contra hn
    rw [hm, projLoop_of_not_mem _ _ _ hn] at h
    exact mapfile_forms_ne m.Name c (Option.some.inj h).symm
  · intro h
    rw [hm, projLoop_of_mem _ _ _ h]
  · intro h
    rw [hm, projLoop_of_not_mem _ _ _ h]

theorem Mapfile_of_unaliased_witness :
    Map.aliasLoop world.Aliases "4326" = "4326" ∧
    (world.Mapfile "EPSG:4326" = some (world.Name ++ "_" ++ "4326" ++ ".map")
      ↔ "4326" ∈ world.Projections) ∧
    ("4326" ∉ world.Projections → world.Mapfile "EPSG:4326" = some (world.Name ++ ".map")) :=
  Mapfile_of_unaliased world "EPSG:4326" "4326" (by decide) (by decide)

/-- C3: when the final segment `c` of the token is listed as an alias under exactly one
key `p`, and `p` is listed as an alias under no other key, `Mapfile` resolves `c` to `p`
for every iteration order of the alias table: the result is `Name + "_" + p + ".map"` when
`p` is in `Projections` and `Name + ".map"` when it is not, whether or not `c` itself is
in `Projections`. -/
theorem Mapfile_of_unique_alias (m : Map) (t c p : String) (hc : Map.srid t = some c)
    (hmem : ∃ e ∈ m.Aliases, e.1 = p ∧ c ∈ e.2)
    (honly : ∀ e ∈ m.Aliases, c ∈ e.2 → e.1 = p)
    (hp : ∀ e ∈ m.Aliases, p ∈ e.2 → e.1 = p)
    (aliases : List (String × List String)) (hperm : aliases.Perm m.Aliases) :
    Map.aliasLoop aliases c = p ∧
    (p ∈ m.Projections →
      Map.Mapfile ⟨m.Name, m.Projections, aliases, m.Path⟩ t
        = some (m.Name ++ "_" ++ p ++ ".map")) ∧
    (p ∉ m.Projections →
      Map.Mapfile ⟨m.Name, m.Projections, aliases, m.Path⟩ t = some (m.Name ++ ".map")) := by
  have hloop : Map.aliasLoop aliases c = p := by
    obtain ⟨e, he, _, hce⟩ := hmem
    exact aliasLoop_unique aliases p c ⟨e, hperm.mem_iff.mpr he, hce⟩
      (fun x hx => honly x (hperm.mem_iff.mp hx)) (fun x hx => hp x (hperm.mem_iff.mp hx))
  have hm := Mapfile_eq ⟨m.Name, m.Projections, aliases, m.Path⟩ t c hc
  simp only [hloop] at hm
  refine ⟨hloop, ?_, ?_⟩
  · intro h
    rw [hm, projLoop_of_mem _ _ _ h]
  · intro h
    rw [hm, projLoop_of_not_mem _ _ _ h]

theorem Mapfile_of_unique_alias_witness :
    Map.Mapfile ⟨"world", ["3857"], [("3857", ["900913"])], ""⟩ "EPSG:900913"
      = some "world_3857.map" :=
  (Mapfile_of_unique_alias world "EPSG:900913" "900913" "3857" (by decide)
    ⟨("3857", ["900913"]), by decide, rfl, by decide⟩ (by decide) (by decide)
    [("3857", ["900913"])] (List.Perm.refl _)).2.1 (by decide)

/-- C4, as the claim states it, fails: with aliases `A: [x]` then `B: [x]` in iteration
order and both keys in `Projections`, the token `x` is listed under two keys, the last
matching entry is `B`, and `Mapfile` returns `m_A.map`, not `m_B.map`. -/
theorem Mapfile_last_match_counterexample :
    Map.srid "x" = some "x" ∧
    "x" ∈ (("A", ["x"]) : String × List String).2 ∧
    "x" ∈ (("B", ["x"]) : String × List String).2 ∧
    "B" ∈ ["A", "B"] ∧
    Map.Mapfile ⟨"m", ["A", "B"], [("A", ["x"]), ("B", ["x"])], ""⟩ "x" = some "m_A.map" ∧
    Map.Mapfile ⟨"m", ["A", "B"], [("A", ["x"]), ("B", ["x"])], ""⟩ "x"
      ≠ some ("m" ++ "_" ++ "B" ++ ".map") := by
  decide

/-- C4, amended: when the final segment `c` of the token is listed as an alias under one
or more keys, `Mapfile` resolves `c` to the key `p` of the first matching entry in the
iteration order of the alias table, provided `p` is not itself listed as an alias in a
later entry; it then returns `Name + "_" + p + ".map"` when `p` is in `Projections`. -/
theorem Mapfile_first_match (m : Map) (t c p : String) (as : List String)
    (pre post : List (String × List String)) (hc : Map.srid t = some c)
    (hsplit : m.Aliases = pre ++ (p, as) :: post)
    (hpre : ∀ e ∈ pre, c ∉ e.2) (hmem : c ∈ as) (hpost : ∀ e ∈ post, p ∉ e.2) :
    Map.aliasLoop m.Aliases c = p ∧
    (p ∈ m.Projections → m.Mapfile t = some (m.Name ++ "_" ++ p ++ ".map")) := by
  have hloop : Map.aliasLoop m.Aliases c = p := by
    rw [hsplit]; exact aliasLoop_first pre post p c as hpre hmem hpost
  refine ⟨hloop, fun h => ?_⟩
  rw [Mapfile_eq m t c hc, hloop, projLoop_of_mem _ _ _ h]

theorem Mapfile_first_match_witness :
    Map.aliasLoop [("A", ["x"]), ("B", ["x"])] "x" = "A" ∧
    ("A" ∈ ["A", "B"] →
      Map.Mapfile ⟨"m", ["A", "B"], [("A", ["x"]), ("B", ["x"])], ""⟩ "x"
        = some ("m" ++ "_" ++ "A" ++ ".map")) :=
  Mapfile_first_match ⟨"m", ["A", "B"], [("A", ["x"]), ("B", ["x"])], ""⟩ "x" "x" "A" ["x"]
    [] [("B", ["x"])] (by decide) rfl (by decide) (by decide) (by decide)

/-- C5: for every map, alias table, iteration order and token, `Mapfile` is defined and
its result is `Name + ".map"` or `Name + "_" + p + ".map"` for some `p` in `Projections`;
and on every parsed form the normalisation of `serveMap` returns a mapping whose `MAP`
entry is one value from that set. -/
theorem Mapfile_range (ToUpper ToLower : String → String) (m : Map) :
    (∀ t : String, ∃ r, m.Mapfile t = some r ∧
      (r = m.Name ++ ".map" ∨ ∃ p ∈ m.Projections, r = m.Name ++ "_" ++ p ++ ".map")) ∧
    (∀ (order : List String) (form : Values), (∀ e ∈ form, e.2 ≠ []) →
      ∃ out r, serveMapForm ToUpper ToLower m order form = some out ∧
        Values.lookup out "MAP" = some [r] ∧
        (r = m.Name ++ ".map" ∨ ∃ p ∈ m.Projections, r = m.Name ++ "_" ++ p ++ ".map")) := by
  have hrange : ∀ t : String, ∃ r, m.Mapfile t = some r ∧
      (r = m.Name ++ ".map" ∨ ∃ p ∈ m.Projections, r = m.Name ++ "_" ++ p ++ ".map") := by
    intro t
    obtain ⟨c, hc⟩ := srid_total t
    refine ⟨_, Mapfile_eq m t c hc, ?_⟩
    by_cases h : Map.aliasLoop m.Aliases c ∈ m.Projections
    · exact Or.inr ⟨_, h, projLoop_of_mem _ _ _ h⟩
    · exact Or.inl (projLoop_of_not_mem _ _ _ h)
  refine ⟨hrange, ?_⟩
  intro order form hparsed
  obtain ⟨v1, hv1, _⟩ := normalizeKeys_total ToUpper order form hparsed
  obtain ⟨mapfile, out, hmf, hout, hlk⟩ := serveMapForm_lookup ToUpper ToLower m order form v1 hv1
  obtain ⟨r, hr, hcase⟩ := hrange (Values.Get v1 "SRS")
  rw [hmf] at hr
  cases hr
  refine ⟨out, mapfile, hout, ?_, hcase⟩
  rw [hlk]
  simp

theorem Mapfile_range_witness :
    ∃ out r, serveMapForm asciiToUpper asciiToLower world ["map", "srs"]
        [("map", ["../../etc/passwd"]), ("srs", ["EPSG:900913"])] = some out ∧
      Values.lookup out "MAP" = some [r] ∧
      (r = world.Name ++ ".map" ∨
        ∃ p ∈ world.Projections, r = world.Name ++ "_" ++ p ++ ".map") :=
  (Mapfile_range asciiToUpper asciiToLower world).2 ["map", "srs"]
    [("map", ["../../etc/passwd"]), ("srs", ["EPSG:900913"])] (by decide)

/-- C6: the normalised mapping does not depend on a client-supplied `MAP` parameter.  For
two parsed forms that differ only at keys whose uppercase form is `MAP`, processed in
orders that agree on the other keys, the normalisation steps of `serveMap` return the same
final mapping, and its `MAP` entry has exactly one value.  (`strings.ToUpper` is
idempotent.) -/
theorem serveMap_ignores_client_MAP (ToUpper ToLower : String → String)
    (hidem : ∀ s, ToUpper (ToUpper s) = ToUpper s) (m : Map)
    (form1 form2 : Values) (order1 order2 : List String)
    (hparsed1 : ∀ e ∈ form1, e.2 ≠ []) (hparsed2 : ∀ e ∈ form2, e.2 ≠ [])
    (hcover1 : ∀ e ∈ form1, e.1 ∈ order1) (hcover2 : ∀ e ∈ form2, e.1 ∈ order2)
    (hdiff : ∀ k, ToUpper k ≠ "MAP" → Values.lookup form1 k = Values.lookup form2 k)
    (horder : order1.filter (fun k => decide (ToUpper k ≠ "MAP"))
      = order2.filter (fun k => decide (ToUpper k ≠ "MAP"))) :
    ∃ out1 out2 mapfile,
      serveMapForm ToUpper ToLower m order1 form1 = some out1 ∧
      serveMapForm ToUpper ToLower m order2 form2 = some out2 ∧
      (∀ k, Values.lookup out1 k = Values.lookup out2 k) ∧
      Values.lookup out1 "MAP" = some [mapfile] := by
  obtain ⟨v1, hv1, _⟩ := normalizeKeys_total ToUpper order1 form1 hparsed1
  obtain ⟨w1, hw1, _⟩ := normalizeKeys_total ToUpper order2 form2 hparsed2
  have hag : ∀ k, k ≠ "MAP" → Values.lookup v1 k = Values.lookup w1 k := by
    intro k hkM
    by_cases hk : ToUpper k = "MAP"
    · have hfix : ToUpper k ≠ k := fun e => hkM (e ▸ hk)
      have h1 := normalizeKeys_lookup_of_not_fixed ToUpper hidem k hfix order1 form1 hparsed1
        (fun hpres => by
          cases hl : Values.lookup form1 k with
          | none => exact absurd hl hpres
          | some vs => exact hcover1 _ (lookup_mem form1 k vs hl))
      have h2 := normalizeKeys_lookup_of_not_fixed ToUpper hidem k hfix order2 form2 hparsed2
        (fun hpres => by
          cases hl : Values.lookup form2 k with
          | none => exact absurd hl hpres
          | some vs => exact hcover2 _ (lookup_mem form2 k vs hl))
      rw [(eq_of_exists_some h1 hv1).2, (eq_of_exists_some h2 hw1).2]
    · obtain ⟨r, r2, hr, hr2, h12⟩ := normalizeKeys_agree ToUpper hidem "MAP" order1 form1 form1
        hparsed1 hparsed1 (fun _ _ => rfl)
      obtain ⟨q, q2, hq, hq2, h34⟩ := normalizeKeys_agree ToUpper hidem "MAP" order2 form2 form1
        hparsed2 hparsed1 (fun j hj => (hdiff j hj).symm)
      rw [hv1] at hr
      rw [hw1] at hq
      rw [← horder, hr2] at hq2
      cases hr
      cases hq
      cases hq2
      rw [h12 k hk, h34 k hk]
  obtain ⟨mf1, out1, hmf1, hout1, hlk1⟩ :=
    serveMapForm_lookup ToUpper ToLower m order1 form1 v1 hv1
  obtain ⟨mf2, out2, hmf2, hout2, hlk2⟩ :=
    serveMapForm_lookup ToUpper ToLower m order2 form2 w1 hw1
  have gS : Values.Get v1 "SRS" = Values.Get w1 "SRS" :=
    Get_congr _ _ _ (hag _ (by decide))
  have gE : Values.Get v1 "EXCEPTIONS" = Values.Get w1 "EXCEPTIONS" :=
    Get_congr _ _ _ (hag _ (by decide))
  have gV : Values.Get v1 "SERVICE" = Values.Get w1 "SERVICE" :=
    Get_congr _ _ _ (hag _ (by decide))
  have gR : Values.Get v1 "REQUEST" = Values.Get w1 "REQUEST" :=
    Get_congr _ _ _ (hag _ (by decide))
  have hmf : mf1 = mf2 := by
    rw [gS, hmf2] at hmf1
    exact (Option.some.inj hmf1).symm
  refine ⟨out1, out2, mf1, hout1, hout2, ?_, ?_⟩
  · intro k
    rw [hlk1, hlk2, gE, gV, gR, hmf, hag "EXCEPTIONS" (by decide), hag "SERVICE" (by decide),
      hag "REQUEST" (by decide)]
    by_cases k1 : k = "EXCEPTIONS"
    · simp [k1]
    · by_cases k2 : k = "MAP"
      · simp [k2]
      · by_cases k3 : k = "SERVICE"
        · simp [k3]
        · by_cases k4 : k = "REQUEST"
          · simp [k4]
          · simp [k1, k2, k3, k4, hag k k2]
  · rw [hlk1]
    simp

theorem serveMap_ignores_client_MAP_witness :
    ∃ out1 out2 mapfile,
      serveMapForm asciiToUpper asciiToLower world ["map", "srs"]
        [("srs", ["EPSG:900913"]), ("map", ["../../etc/passwd"])] = some out1 ∧
      serveMapForm asciiToUpper asciiToLower world ["srs"]
        [("srs", ["EPSG:900913"])] = some out2 ∧
      (∀ k, Values.lookup out1 k = Values.lookup out2 k) ∧
      Values.lookup out1 "MAP" = some [mapfile] :=
  serveMap_ignores_client_MAP asciiToUpper asciiToLower asciiToUpper_idem world
    [("srs", ["EPSG:900913"]), ("map", ["../../etc/passwd"])] [("srs", ["EPSG:900913"])]
    ["map", "srs"] ["srs"] (by decide) (by decide) (by decide) (by decide)
    (by
      intro k hk
      have hne : "map" ≠ k := fun e => hk (e ▸ by decide)
      simp [lookup_cons, lookup_nil, hne])
    (by decide)

/-- C7: on a parsed form in which at most one key has uppercase form `SRS`, the `MAP`
value of the normalised mapping is `Mapfile(s)`, where `s` is the first value of that key,
whatever its letter case as sent, and `s` is the empty string when there is no such key.
(`strings.ToUpper` is idempotent.) -/
theorem serveMap_MAP_of_SRS (ToUpper ToLower : String → String)
    (hidem : ∀ s, ToUpper (ToUpper s) = ToUpper s) (m : Map) (order : List String)
    (form : Values) (hparsed : ∀ e ∈ form, e.2 ≠ []) (hcover : ∀ e ∈ form, e.1 ∈ order)
    (huniq : ∀ e1 ∈ form, ∀ e2 ∈ form,
      ToUpper e1.1 = "SRS" → ToUpper e2.1 = "SRS" → e1.1 = e2.1) :
    ∃ out mapfile, serveMapForm ToUpper ToLower m order form = some out ∧
      Values.lookup out "MAP" = some [mapfile] ∧
      (∀ k s vs, Values.lookup form k = some (s :: vs) → ToUpper k = "SRS" →
        m.Mapfile s = some mapfile) ∧
      ((∀ e ∈ form, ToUpper e.1 ≠ "SRS") → m.Mapfile "" = some mapfile) := by
  obtain ⟨v1, hv1, _⟩ := normalizeKeys_total ToUpper order form hparsed
  obtain ⟨hone, hnone⟩ :=
    normalizeKeys_target ToUpper hidem "SRS" order form hparsed hcover huniq v1 hv1
  obtain ⟨mapfile, out, hmf, hout, hlk⟩ := serveMapForm_lookup ToUpper ToLower m order form v1 hv1
  refine ⟨out, mapfile, hout, by rw [hlk]; simp, ?_, ?_⟩
  · intro k s vs hk hup
    rw [Get_of_lookup_cons v1 "SRS" s [] (hone k s vs hk hup)] at hmf
    exact hmf
  · intro h
    rw [Get_of_lookup_none v1 "SRS" (hnone h)] at hmf
    exact hmf

theorem serveMap_MAP_of_SRS_witness :
    ∃ out, serveMapForm asciiToUpper asciiToLower world ["srs"]
        [("srs", ["EPSG:900913"])] = some out ∧
      Values.lookup out "MAP" = some ["world_3857.map"] := by
  obtain ⟨out, mapfile, hout, hmap, hone, _⟩ :=
    serveMap_MAP_of_SRS asciiToUpper asciiToLower asciiToUpper_idem world ["srs"]
      [("srs", ["EPSG:900913"])] (by decide) (by decide) (by decide)
  have h := hone "srs" "EPSG:900913" [] (by decide) (by decide)
  have h2 : world.Mapfile "EPSG:900913" = some "world_3857.map" := by decide
  rw [h2] at h
  cases h
  exact ⟨out, hout, hmap⟩

/-- C8: on every parsed form the `EXCEPTIONS` value of the normalised mapping, once
lowercased, is one of `blank`, `image`, `xml`.  (`strings.ToLower` leaves `"xml"` as it
is.) -/
theorem serveMap_EXCEPTIONS_allowed (ToUpper ToLower : String → String)
    (hxml : ToLower "xml" = "xml") (m : Map) (order : List String) (form : Values)
    (hparsed : ∀ e ∈ form, e.2 ≠ []) :
    ∃ out, serveMapForm ToUpper ToLower m order form = some out ∧
      ToLower (Values.Get out "EXCEPTIONS") ∈ exceptions := by
  obtain ⟨v1, hv1, _⟩ := normalizeKeys_total ToUpper order form hparsed
  obtain ⟨mapfile, out, _, hout, hlk⟩ := serveMapForm_lookup ToUpper ToLower m order form v1 hv1
  refine ⟨out, hout, ?_⟩
  have hE := hlk "EXCEPTIONS"
  rw [if_pos rfl] at hE
  by_cases hinv : invalidException ToLower (Values.Get v1 "EXCEPTIONS") = true
  · rw [if_pos hinv] at hE
    rw [Get_of_lookup_cons out "EXCEPTIONS" "xml" [] hE, hxml]
    simp [exceptions]
  · rw [if_neg hinv] at hE
    rw [Get_congr _ _ _ hE]
    have hf : invalidException ToLower (Values.Get v1 "EXCEPTIONS") = false := by
      simpa using hinv
    rcases (invalidException_eq_false_iff ToLower _).mp hf with h | h | h <;>
      simp [exceptions, h]

theorem serveMap_EXCEPTIONS_allowed_witness :
    ∃ out, serveMapForm asciiToUpper asciiToLower world ["exceptions"]
        [("exceptions", ["application/vnd.ogc.se_inimage"])] = some out ∧
      asciiToLower (Values.Get out "EXCEPTIONS") ∈ exceptions :=
  serveMap_EXCEPTIONS_allowed asciiToUpper asciiToLower (by decide) world ["exceptions"]
    [("exceptions", ["application/vnd.ogc.se_inimage"])] (by decide)

/-- C9: `invalidException(v)` is false exactly when the lowercased `v` is `blank`, `image`
or `xml`.  Consequently, on a parsed form in which at most one key has uppercase form
`EXCEPTIONS`, the normalisation never fails and the `EXCEPTIONS` entry of the result holds
the client's value, character for character, when its lowercased form is in the allow-list,
and holds exactly `xml` when the parameter is absent, empty or any other value.
(`strings.ToUpper` is idempotent and `strings.ToLower` leaves `""` as it is.) -/
theorem serveMap_EXCEPTIONS_value (ToUpper ToLower : String → String)
    (hidem : ∀ s, ToUpper (ToUpper s) = ToUpper s) (hempty : ToLower "" = "")
    (m : Map) (order : List String) (form : Values)
    (hparsed : ∀ e ∈ form, e.2 ≠ []) (hcover : ∀ e ∈ form, e.1 ∈ order)
    (huniq : ∀ e1 ∈ form, ∀ e2 ∈ form,
      ToUpper e1.1 = "EXCEPTIONS" → ToUpper e2.1 = "EXCEPTIONS" → e1.1 = e2.1) :
    (∀ v, invalidException ToLower v = false ↔
      (ToLower v = "blank" ∨ ToLower v = "image" ∨ ToLower v = "xml")) ∧
    ∃ out, serveMapForm ToUpper ToLower m order form = some out ∧
      (∀ k s vs, Values.lookup form k = some (s :: vs) → ToUpper k = "EXCEPTIONS" →
        (ToLower s ∈ exceptions → Values.lookup out "EXCEPTIONS" = some [s]) ∧
        (ToLower s ∉ exceptions → Values.lookup out "EXCEPTIONS" = some ["xml"]) ∧
        (s = "" → Values.lookup out "EXCEPTIONS" = some ["xml"])) ∧
      ((∀ e ∈ form, ToUpper e.1 ≠ "EXCEPTIONS") →
        Values.lookup out "EXCEPTIONS" = some ["xml"]) := by
  refine ⟨invalidException_eq_false_iff ToLower, ?_⟩
  obtain ⟨v1, hv1, _⟩ := normalizeKeys_total ToUpper order form hparsed
  obtain ⟨hone, hnone⟩ :=
    normalizeKeys_target ToUpper hidem "EXCEPTIONS" order form hparsed hcover huniq v1 hv1
  obtain ⟨mapfile, out, _, hout, hlk⟩ := serveMapForm_lookup ToUpper ToLower m order form v1 hv1
  have hE := hlk "EXCEPTIONS"
  rw [if_pos rfl] at hE
  have hiff : ∀ v, invalidException ToLower v = true ↔ ToLower v ∉ exceptions := by
    intro v
    have := invalidException_eq_false_iff ToLower v
    constructor
    · intro ht hmem
      have hf := this.mpr (by simpa [exceptions] using hmem)
      rw [ht] at hf
      cases hf
    · intro hn
      by_contra hc
      exact hn (by simpa [exceptions] using this.mp (by simpa using hc))
  have hemptyInv : invalidException ToLower "" = true :=
    (hiff "").mpr (by rw [hempty]; decide)
  refine ⟨out, hout, ?_, ?_⟩
  · intro k s vs hk hup
    have hl := hone k s vs hk hup
    have hg := Get_of_lookup_cons v1 "EXCEPTIONS" s [] hl
    rw [hg, hl] at hE
    refine ⟨fun hin => ?_, fun hnin => ?_, fun hs => ?_⟩
    · rw [hE, if_neg (fun h => (hiff s).mp h hin)]
    · rw [hE, if_pos ((hiff s).mpr hnin)]
    · rw [hE, hs, if_pos hemptyInv]
  · intro h
    rw [Get_of_lookup_none v1 "EXCEPTIONS" (hnone h), if_pos hemptyInv] at hE
    exact hE

theorem serveMap_EXCEPTIONS_value_witness :
    ∃ out, serveMapForm asciiToUpper asciiToLower world ["EXCEPTIONS"]
        [("EXCEPTIONS", ["IMAGE"])] = some out ∧
      Values.lookup out "EXCEPTIONS" = some ["IMAGE"] := by
  obtain ⟨out, hout, hone, _⟩ :=
    (serveMap_EXCEPTIONS_value asciiToUpper asciiToLower asciiToUpper_idem (by decide) world
      ["EXCEPTIONS"] [("EXCEPTIONS", ["IMAGE"])] (by decide) (by decide) (by decide)).2
  exact ⟨out, hout, (hone "EXCEPTIONS" "IMAGE" [] (by decide) (by decide)).1 (by decide)⟩

/-- C10: on a parsed form in which at most one key has uppercase form `REQUEST`, the
normalised mapping has `REQUEST` equal to `GetCapabilities` when that key is absent or its
first value is empty, and equal to that first value unchanged when it is non-empty; the
same holds for `SERVICE` with the default `WMS`.  (`strings.ToUpper` is idempotent.) -/
theorem serveMap_defaults (ToUpper ToLower : String → String)
    (hidem : ∀ s, ToUpper (ToUpper s) = ToUpper s) (m : Map) (order : List String)
    (form : Values) (hparsed : ∀ e ∈ form, e.2 ≠ []) (hcover : ∀ e ∈ form, e.1 ∈ order) :
    ∃ out, serveMapForm ToUpper ToLower m order form = some out ∧
      ((∀ e1 ∈ form, ∀ e2 ∈ form,
          ToUpper e1.1 = "REQUEST" → ToUpper e2.1 = "REQUEST" → e1.1 = e2.1) →
        (∀ k s vs, Values.lookup form k = some (s :: vs) → ToUpper k = "REQUEST" →
          Values.lookup out "REQUEST" = some [if s = "" then "GetCapabilities" else s]) ∧
        ((∀ e ∈ form, ToUpper e.1 ≠ "REQUEST") →
          Values.lookup out "REQUEST" = some ["GetCapabilities"])) ∧
      ((∀ e1 ∈ form, ∀ e2 ∈ form,
          ToUpper e1.1 = "SERVICE" → ToUpper e2.1 = "SERVICE" → e1.1 = e2.1) →
        (∀ k s vs, Values.lookup form k = some (s :: vs) → ToUpper k = "SERVICE" →
          Values.lookup out "SERVICE" = some [if s = "" then "WMS" else s]) ∧
        ((∀ e ∈ form, ToUpper e.1 ≠ "SERVICE") →
          Values.lookup out "SERVICE" = some ["WMS"])) := by
  obtain ⟨v1, hv1, _⟩ := normalizeKeys_total ToUpper order form hparsed
  obtain ⟨mapfile, out, _, hout, hlk⟩ := serveMapForm_lookup ToUpper ToLower m order form v1 hv1
  have hR := hlk "REQUEST"
  have hS := hlk "SERVICE"
  simp only [if_neg (show ¬ ("REQUEST" = "EXCEPTIONS") by decide),
    if_neg (show ¬ ("REQUEST" = "MAP") by decide),
    if_neg (show ¬ ("REQUEST" = "SERVICE") by decide), if_true] at hR
  simp only [if_neg (show ¬ ("SERVICE" = "EXCEPTIONS") by decide),
    if_neg (show ¬ ("SERVICE" = "MAP") by decide), if_true] at hS
  refine ⟨out, hout, ?_, ?_⟩
  · intro huniq
    obtain ⟨hone, hnone⟩ :=
      normalizeKeys_target ToUpper hidem "REQUEST" order form hparsed hcover huniq v1 hv1
    refine ⟨?_, ?_⟩
    · intro k s vs hk hup
      have hl := hone k s vs hk hup
      rw [Get_of_lookup_cons v1 "REQUEST" s [] hl, hl] at hR
      rw [hR]
      by_cases hs : s = ""
      · simp [hs]
      · simp [hs]
    · intro h
      rw [Get_of_lookup_none v1 "REQUEST" (hnone h), if_pos rfl] at hR
      exact hR
  · intro huniq
    obtain ⟨hone, hnone⟩ :=
      normalizeKeys_target ToUpper hidem "SERVICE" order form hparsed hcover huniq v1 hv1
    refine ⟨?_, ?_⟩
    · intro k s vs hk hup
      have hl := hone k s vs hk hup
      rw [Get_of_lookup_cons v1 "SERVICE" s [] hl, hl] at hS
      rw [hS]
      by_cases hs : s = ""
      · simp [hs]
      · simp [hs]
    · intro h
      rw [Get_of_lookup_none v1 "SERVICE" (hnone h), if_pos rfl] at hS
      exact hS

theorem serveMap_defaults_witness :
    ∃ out, serveMapForm asciiToUpper asciiToLower world ["request", "srs"]
        [("request", ["GetMap"]), ("srs", ["EPSG:4326"])] = some out ∧
      Values.lookup out "REQUEST" = some ["GetMap"] ∧
      Values.lookup out "SERVICE" = some ["WMS"] := by
  obtain ⟨out, hout, hreq, hserv⟩ :=
    serveMap_defaults asciiToUpper asciiToLower asciiToUpper_idem world ["request", "srs"]
      [("request", ["GetMap"]), ("srs", ["EPSG:4326"])] (by decide) (by decide)
  refine ⟨out, hout, ?_, ?_⟩
  · exact (hreq (by decide)).1 "request" "GetMap" [] (by decide) (by decide)
  · exact (hserv (by decide)).2 (by decide)

/-! ## Lemmas on `Map.UrlPath` -/

theorem hasPrefix_slash_iff (s : String) :
    strings_HasPrefix s "/" = true ↔ ∃ t, s.data = '/' :: t := by
  have hd : ("/" : String).data = ['/'] := rfl
  simp only [strings_HasPrefix, hd, decide_eq_true_eq, List.length_singleton]
  constructor
  · rintro ⟨_, h⟩
    cases hs : s.data with
    | nil => rw [hs] at h; simp at h
    | cons c cs =>
      rw [hs] at h
      simp at h
      exact ⟨cs, by rw [h]⟩
  · rintro ⟨t, ht⟩
    rw [ht]
    simp

theorem hasSuffix_slash_iff (s : String) :
    strings_HasSuffix s "/" = true ↔ ∃ t, s.data = t ++ ['/'] := by
  have hd : ("/" : String).data = ['/'] := rfl
  simp only [strings_HasSuffix, hd, decide_eq_true_eq, List.length_singleton]
  constructor
  · rintro ⟨_, h⟩
    refine ⟨s.data.take (s.data.length - 1), ?_⟩
    rw [← h]
    exact (List.take_append_drop _ _).symm
  · rintro ⟨t, ht⟩
    rw [ht]
    simp

theorem hasPrefix_slash_append (p : String) : strings_HasPrefix ("/" ++ p) "/" = true :=
  (hasPrefix_slash_iff _).mpr ⟨p.data, by simp [String.data_append]⟩

theorem hasSuffix_append_slash (p : String) : strings_HasSuffix (p ++ "/") "/" = true :=
  (hasSuffix_slash_iff _).mpr ⟨p.data, by simp [String.data_append]⟩

theorem hasPrefix_append_slash (p : String) (h : strings_HasPrefix p "/" = true) :
    strings_HasPrefix (p ++ "/") "/" = true := by
  obtain ⟨t, ht⟩ := (hasPrefix_slash_iff p).mp h
  exact (hasPrefix_slash_iff _).mpr ⟨t ++ ['/'], by simp [String.data_append, ht]⟩

theorem ne_empty_of_hasPrefix_slash (p : String) (h : strings_HasPrefix p "/" = true) :
    p ≠ "" := by
  obtain ⟨t, ht⟩ := (hasPrefix_slash_iff p).mp h
  intro e
  rw [e] at ht
  cases ht

theorem slashes_of_steps (p1 p2 p3 : String)
    (h2 : p2 = if strings_HasPrefix p1 "/" = false then "/" ++ p1 else p1)
    (h3 : p3 = if strings_HasSuffix p2 "/" = false then p2 ++ "/" else p2) :
    p3 ≠ "" ∧ strings_HasPrefix p3 "/" = true ∧ strings_HasSuffix p3 "/" = true := by
  have hp2 : strings_HasPrefix p2 "/" = true := by
    by_cases h : strings_HasPrefix p1 "/" = false
    · rw [h2, if_pos h]; exact hasPrefix_slash_append p1
    · rw [h2, if_neg h]; simpa using h
  by_cases h : strings_HasSuffix p2 "/" = false
  · rw [h3, if_pos h]
    exact ⟨ne_empty_of_hasPrefix_slash _ (hasPrefix_append_slash p2 hp2),
      hasPrefix_append_slash p2 hp2, hasSuffix_append_slash p2⟩
  · rw [h3, if_neg h]
    exact ⟨ne_empty_of_hasPrefix_slash _ hp2, hp2, by simpa using h⟩

/-- C13: for every map (any `Name` and `Path`, both possibly empty), `UrlPath` returns a
non-empty string that begins with `/` and ends with `/`. -/
theorem UrlPath_slashes (m : Map) :
    m.UrlPath ≠ "" ∧ strings_HasPrefix m.UrlPath "/" = true ∧
      strings_HasSuffix m.UrlPath "/" = true :=
  slashes_of_steps (if m.Path = "" then m.Name else m.Path)
    (if strings_HasPrefix (if m.Path = "" then m.Name else m.Path) "/" = false then
      "/" ++ (if m.Path = "" then m.Name else m.Path)
      else (if m.Path = "" then m.Name else m.Path))
    m.UrlPath rfl rfl

/-- C14: when `Path` is empty and `Name` is non-empty and neither begins nor ends with
`/`, `UrlPath` returns `"/" + Name + "/"`; when `Path` is non-empty and already begins and
ends with `/`, `UrlPath` returns `Path` unchanged. -/
theorem UrlPath_value (m : Map) :
    (m.Path = "" → m.Name ≠ "" → strings_HasPrefix m.Name "/" = false →
      strings_HasSuffix m.Name "/" = false → m.UrlPath = "/" ++ m.Name ++ "/") ∧
    (m.Path ≠ "" → strings_HasPrefix m.Path "/" = true →
      strings_HasSuffix m.Path "/" = true → m.UrlPath = m.Path) := by
  refine ⟨?_, ?_⟩
  · intro hp hn hpre hsuf
    have hsuf2 : strings_HasSuffix ("/" ++ m.Name) "/" = false := by
      cases hc : strings_HasSuffix ("/" ++ m.Name) "/" with
      | false => rfl
      | true =>
        exfalso
        obtain ⟨t, ht⟩ := (hasSuffix_slash_iff _).mp hc
        have hdata : m.Name.data ≠ [] := by
          intro e
          apply hn
          cases hN : m.Name with
          | mk d => rw [hN] at e; simp at e; rw [e]
        have hname : strings_HasSuffix m.Name "/" = true := by
          refine (hasSuffix_slash_iff _).mpr ?_
          simp only [String.data_append] at ht
          cases t with
          | nil =>
            simp at ht
            exact absurd ht hdata
          | cons c cs =>
            simp at ht
            exact ⟨cs, ht.2⟩
        rw [hname] at hsuf
        cases hsuf
    simp [Map.UrlPath, hp, hpre, hsuf2]
  · intro hp hpre hsuf
    simp [Map.UrlPath, hp, hpre, hsuf]

theorem UrlPath_value_witness :
    world.UrlPath = "/" ++ world.Name ++ "/" ∧
    Map.UrlPath ⟨"world", [], [], "/maps/world/"⟩ = "/maps/world/" :=
  ⟨(UrlPath_value world).1 (by decide) (by decide) (by decide) (by decide),
    (UrlPath_value ⟨"world", [], [], "/maps/world/"⟩).2 (by decide) (by decide) (by decide)⟩

/-! ## The shape of the map after `normalizeKeys` -/

/-- After a run of the loop that reaches every key, every key of the map is its own normal
form and is bound to exactly one value. -/
theorem normalizeKeys_normal (f : String → String) (hidem : ∀ s, f (f s) = f s)
    (order : List String) (v : Values) (hne : ∀ e ∈ v, e.2 ≠ [])
    (hcover : ∀ e ∈ v, e.1 ∈ order) :
    ∃ r, normalizeKeys f order v = some r ∧ (∀ e ∈ r, e.2 ≠ []) ∧
      ∀ k vs, Values.lookup r k = some vs → f k = k ∧ ∃ x, vs = [x] := by
  refine Exists.imp ?_ (normalizeKeys_invariant f
    (fun rest w => ∀ k vs, Values.lookup w k = some vs → k ∈ rest ∨ (f k = k ∧ ∃ x, vs = [x]))
    ?_ ?_ order v hne ?_)
  · rintro r ⟨hr, hner, hinv⟩
    refine ⟨hr, hner, fun k vs hl => ?_⟩
    rcases hinv k vs hl with h | h
    · simp at h
    · exact h
  · intro j rest w hinv hl k vs hk
    rcases hinv k vs hk with h | h
    · rcases List.mem_cons.mp h with e | e
      · rw [e, hl] at hk; cases hk
      · exact Or.inl e
    · exact Or.inr h
  · intro j rest w x xs hinv _ k vs hk
    rw [lookup_visit] at hk
    by_cases h1 : k = f j
    · rw [if_pos h1] at hk
      cases hk
      exact Or.inr ⟨by rw [h1, hidem], x, rfl⟩
    · rw [if_neg h1] at hk
      by_cases h2 : k = j
      · rw [if_pos h2] at hk; cases hk
      · rw [if_neg h2] at hk
        rcases hinv k vs hk with h | h
        · rcases List.mem_cons.mp h with e | e
          · exact absurd e h2
          · exact Or.inl e
        · exact Or.inr h
  · intro k vs hk
    exact Or.inl (hcover _ (lookup_mem v k vs hk))

/-- On a map whose keys are their own normal forms, each bound to one value, the loop
changes no binding, whatever keys it reaches. -/
theorem normalizeKeys_of_normal (f : String → String) (order : List String) (w : Values)
    (hne : ∀ e ∈ w, e.2 ≠ [])
    (hw : ∀ k vs, Values.lookup w k = some vs → f k = k ∧ ∃ x, vs = [x]) :
    ∃ r, normalizeKeys f order w = some r ∧ ∀ k, Values.lookup r k = Values.lookup w k := by
  refine Exists.imp ?_ (normalizeKeys_invariant f
    (fun _ u => ∀ k, Values.lookup u k = Values.lookup w k) ?_ ?_ order w hne (fun _ => rfl))
  · rintro r ⟨hr, _, hinv⟩
    exact ⟨hr, hinv⟩
  · intro j rest u hinv _
    exact hinv
  · intro j rest u x xs hinv hl k
    rw [hinv j] at hl
    obtain ⟨hfj, y, hy⟩ := hw j _ hl
    have hxy : xs = [] := by
      cases hy; rfl
    rw [lookup_visit, hfj]
    by_cases hk : k = j
    · rw [if_pos hk, hk, ← hinv j, hinv j, hl, hxy]
    · rw [if_neg hk, if_neg hk]; exact hinv k

theorem Mapfile_ne_empty (m : Map) (t r : String) (h : m.Mapfile t = some r) : r ≠ "" := by
  obtain ⟨c, hc⟩ := srid_total t
  rw [Mapfile_eq m t c hc] at h
  have hr := Option.some.inj h
  have hdata : r.data ≠ [] := by
    by_cases hp : Map.aliasLoop m.Aliases c ∈ m.Projections
    · rw [← hr, projLoop_of_mem _ _ _ hp]
      simp [String.data_append]
    · rw [← hr, projLoop_of_not_mem _ _ _ hp]
      simp [String.data_append]
  intro e
  rw [e] at hdata
  exact hdata rfl

/-- A key whose `Get` is non-empty, in a map of one-value bindings, is bound to that
non-empty value. -/
theorem lookup_of_Get_ne_empty (v : Values) (k : String)
    (hv : ∀ k vs, Values.lookup v k = some vs → ∃ x, vs = [x]) (h : Values.Get v k ≠ "") :
    ∃ x, Values.lookup v k = some [x] ∧ x ≠ "" ∧ Values.Get v k = x := by
  cases hl : Values.lookup v k with
  | none => exact absurd (Get_of_lookup_none v k hl) h
  | some vs =>
    obtain ⟨x, hx⟩ := hv k vs hl
    subst hx
    have hg := Get_of_lookup_cons v k x [] hl
    exact ⟨x, rfl, fun e => h (by rw [hg, e]), hg⟩

/-- C11: key-case normalisation is idempotent.  For every form in which every key has at
least one value, every run of `normalizeKeys` with `strings.ToUpper` returns a map that a
second run, reaching any keys in any order, leaves unchanged.  (`strings.ToUpper` is
idempotent.) -/
theorem normalizeKeys_idempotent (ToUpper : String → String)
    (hidem : ∀ s, ToUpper (ToUpper s) = ToUpper s) (v : Values) (order1 order2 : List String)
    (hparsed : ∀ e ∈ v, e.2 ≠ []) (hcover : ∀ e ∈ v, e.1 ∈ order1) :
    ∃ r r2, normalizeKeys ToUpper order1 v = some r ∧
      normalizeKeys ToUpper order2 r = some r2 ∧
      ∀ k, Values.lookup r2 k = Values.lookup r k := by
  obtain ⟨r, hr, hner, hnormal⟩ := normalizeKeys_normal ToUpper hidem order1 v hparsed hcover
  obtain ⟨r2, hr2, hsame⟩ := normalizeKeys_of_normal ToUpper order2 r hner hnormal
  exact ⟨r, r2, hr, hr2, hsame⟩

theorem normalizeKeys_idempotent_witness :
    ∃ r r2, normalizeKeys asciiToUpper ["srs", "Request"]
        [("srs", ["EPSG:4326", "EPSG:3857"]), ("Request", ["GetMap"])] = some r ∧
      normalizeKeys asciiToUpper ["REQUEST", "SRS"] r = some r2 ∧
      ∀ k, Values.lookup r2 k = Values.lookup r k :=
  normalizeKeys_idempotent asciiToUpper asciiToUpper_idem
    [("srs", ["EPSG:4326", "EPSG:3857"]), ("Request", ["GetMap"])] ["srs", "Request"]
    ["REQUEST", "SRS"] (by decide) (by decide)

/-- C12: for every form in which every key has at least one value and no two distinct keys
have the same uppercase form, every run of `normalizeKeys` with `strings.ToUpper` returns
exactly the map that binds the uppercase form of each original key to the one-element list
of that key's first value; no other key is bound.  (`strings.ToUpper` is idempotent.) -/
theorem normalizeKeys_exact (ToUpper : String → String)
    (hidem : ∀ s, ToUpper (ToUpper s) = ToUpper s) (v : Values) (order : List String)
    (hparsed : ∀ e ∈ v, e.2 ≠ []) (hcover : ∀ e ∈ v, e.1 ∈ order)
    (hinj : ∀ e1 ∈ v, ∀ e2 ∈ v, ToUpper e1.1 = ToUpper e2.1 → e1.1 = e2.1) :
    ∃ r, normalizeKeys ToUpper order v = some r ∧
      (∀ k s vs, Values.lookup v k = some (s :: vs) →
        Values.lookup r (ToUpper k) = some [s]) ∧
      (∀ j, (∀ e ∈ v, ToUpper e.1 ≠ j) → Values.lookup r j = none) := by
  obtain ⟨r, hr, _⟩ := normalizeKeys_total ToUpper order v hparsed
  have huniq : ∀ T, ∀ e1 ∈ v, ∀ e2 ∈ v, ToUpper e1.1 = T → ToUpper e2.1 = T → e1.1 = e2.1 :=
    fun T e1 h1 e2 h2 a b => hinj e1 h1 e2 h2 (a.trans b.symm)
  refine ⟨r, hr, ?_, ?_⟩
  · intro k s vs hk
    exact (normalizeKeys_target ToUpper hidem (ToUpper k) order v hparsed hcover
      (huniq _) r hr).1 k s vs hk rfl
  · intro j hj
    exact (normalizeKeys_target ToUpper hidem j order v hparsed hcover (huniq _) r hr).2 hj

theorem normalizeKeys_exact_witness :
    ∃ r, normalizeKeys asciiToUpper ["Request", "srs"]
        [("srs", ["EPSG:4326", "EPSG:3857"]), ("Request", ["GetMap"])] = some r ∧
      Values.lookup r "SRS" = some ["EPSG:4326"] ∧
      Values.lookup r "srs" = none := by
  obtain ⟨r, hr, hbound, hfree⟩ := normalizeKeys_exact asciiToUpper asciiToUpper_idem
    [("srs", ["EPSG:4326", "EPSG:3857"]), ("Request", ["GetMap"])] ["Request", "srs"]
    (by decide) (by decide) (by decide)
  exact ⟨r, hr, hbound "srs" "EPSG:4326" ["EPSG:3857"] (by decide), hfree "srs" (by decide)⟩

/-! ## Lemmas on `serveMap` -/

theorem lookup_addCORSHeaders (w : ResponseWriter) (r : Request) (k : String) :
    Values.lookup (addCORSHeaders w r).Header k =
      if k = "Access-Control-Max-Age" then some ["1728000"]
      else if k = "Access-Control-Allow-Headers" then
        some ["Authorization,Content-Type,Accept,Origin,User-Agent,DNT,Cache-Control,X-Mx-ReqToken,Keep-Alive,X-Requested-With,If-Modified-Since"]
      else if k = "Access-Control-Allow-Methods" then some ["GET, OPTIONS"]
      else if k = "Access-Control-Allow-Origin" then some [r.Origin]
      else Values.lookup w.Header k := by
  simp only [addCORSHeaders, ResponseWriter.HeaderSet, lookup_Set]

theorem addCORSHeaders_Status (w : ResponseWriter) (r : Request) :
    (addCORSHeaders w r).Status = w.Status := rfl

theorem addCORSHeaders_Body (w : ResponseWriter) (r : Request) :
    (addCORSHeaders w r).Body = w.Body := rfl

theorem WriteHeader_Header (w : ResponseWriter) (code : Nat) :
    (w.WriteHeader code).Header = w.Header := by
  unfold ResponseWriter.WriteHeader
  cases w.Status <;> rfl

theorem WriteHeader_Body (w : ResponseWriter) (code : Nat) :
    (w.WriteHeader code).Body = w.Body := by
  unfold ResponseWriter.WriteHeader
  cases w.Status <;> rfl

theorem WriteHeader_Status (w : ResponseWriter) (code : Nat) (h : w.Status = none) :
    (w.WriteHeader code).Status = some code := by
  unfold ResponseWriter.WriteHeader
  rw [h]

theorem serveMap_of_OPTIONS (ToUpper ToLower : String → String) (Encode : Values → String)
    (Directory : String) (ServeHTTP : Handler → ResponseWriter → ResponseWriter)
    (m : Map) (order : List String) (r : Request) (s : ServeState)
    (hm : r.Method = "OPTIONS") :
    serveMap ToUpper ToLower Encode Directory ServeHTTP m order r s =
      some { s with w := (addCORSHeaders s.w r).WriteHeader 204,
                    log := s.log ++ [⟨204, 0⟩] } := by
  simp [serveMap, hm]

theorem serveMap_of_ParseErr (ToUpper ToLower : String → String) (Encode : Values → String)
    (Directory : String) (ServeHTTP : Handler → ResponseWriter → ResponseWriter)
    (m : Map) (order : List String) (r : Request) (s : ServeState)
    (hm : r.Method ≠ "OPTIONS") (he : r.ParseErr = true) :
    serveMap ToUpper ToLower Encode Directory ServeHTTP m order r s =
      some { s with w := s.w.WriteString "400", log := s.log ++ [⟨404, 0⟩],
                    Form := some r.Form } := by
  simp [serveMap, hm, he]

theorem serveMap_of_parsed (ToUpper ToLower : String → String) (Encode : Values → String)
    (Directory : String) (ServeHTTP : Handler → ResponseWriter → ResponseWriter)
    (m : Map) (order : List String) (r : Request) (s : ServeState)
    (hm : r.Method ≠ "OPTIONS") (he : r.ParseErr = false) (form : Values)
    (hf : serveMapForm ToUpper ToLower m order r.Form = some form) :
    serveMap ToUpper ToLower Encode Directory ServeHTTP m order r s =
      some { w := ServeHTTP ⟨"/usr/bin/mapserv", Directory, ["QUERY_STRING=" ++ Encode form]⟩
                    (addCORSHeaders s.w r),
             log := s.log ++ [⟨200, 0⟩], Form := some form,
             served := s.served ++
               [⟨"/usr/bin/mapserv", Directory, ["QUERY_STRING=" ++ Encode form]⟩] } := by
  simp [serveMap, hm, he, hf]

theorem serveMapForm_total (ToUpper ToLower : String → String) (m : Map)
    (order : List String) (form : Values) (hparsed : ∀ e ∈ form, e.2 ≠ []) :
    ∃ out, serveMapForm ToUpper ToLower m order form = some out := by
  obtain ⟨v1, hv1, _⟩ := normalizeKeys_total ToUpper order form hparsed
  obtain ⟨_, out, _, hout, _⟩ := serveMapForm_lookup ToUpper ToLower m order form v1 hv1
  exact ⟨out, hout⟩

/-- C15: for every request whose method is `OPTIONS`, `serveMap` returns after setting the
four CORS headers and writing status 204; it writes no body, leaves the request form
untouched, serves no CGI handler, and logs one record with status 204. -/
theorem serveMap_preflight (ToUpper ToLower : String → String) (Encode : Values → String)
    (Directory : String) (ServeHTTP : Handler → ResponseWriter → ResponseWriter)
    (m : Map) (order : List String) (r : Request) (s : ServeState)
    (hm : r.Method = "OPTIONS") :
    ∃ s2, serveMap ToUpper ToLower Encode Directory ServeHTTP m order r s = some s2 ∧
      Values.lookup s2.w.Header "Access-Control-Allow-Origin" = some [r.Origin] ∧
      Values.lookup s2.w.Header "Access-Control-Allow-Methods" = some ["GET, OPTIONS"] ∧
      Values.lookup s2.w.Header "Access-Control-Allow-Headers" = some
        ["Authorization,Content-Type,Accept,Origin,User-Agent,DNT,Cache-Control,X-Mx-ReqToken,Keep-Alive,X-Requested-With,If-Modified-Since"] ∧
      Values.lookup s2.w.Header "Access-Control-Max-Age" = some ["1728000"] ∧
      (s.w.Status = none → s2.w.Status = some 204) ∧
      s2.w.Body = s.w.Body ∧
      s2.Form = s.Form ∧
      s2.served = s.served ∧
      s2.log = s.log ++ [⟨204, 0⟩] := by
  refine ⟨_, serveMap_of_OPTIONS ToUpper ToLower Encode Directory ServeHTTP m order r s hm,
    ?_, ?_, ?_, ?_, ?_, ?_, rfl, rfl, rfl⟩
  · simp only [WriteHeader_Header, lookup_addCORSHeaders]; simp
  · simp only [WriteHeader_Header, lookup_addCORSHeaders]; simp
  · simp only [WriteHeader_Header, lookup_addCORSHeaders]; simp
  · simp only [WriteHeader_Header, lookup_addCORSHeaders]; simp
  · intro h
    exact WriteHeader_Status _ 204 (by rw [addCORSHeaders_Status]; exact h)
  · simp only [WriteHeader_Body, addCORSHeaders_Body]

theorem serveMap_preflight_witness :
    ∃ s2, serveMap asciiToUpper asciiToLower (fun _ => "") "/maps" (fun _ w => w) world []
        ⟨"OPTIONS", "https://example.org", [], false⟩ ServeState.init = some s2 ∧
      Values.lookup s2.w.Header "Access-Control-Allow-Origin" = some ["https://example.org"] ∧
      s2.w.Status = some 204 ∧ s2.w.Body = "" ∧ s2.Form = none ∧ s2.served = [] ∧
      s2.log = [⟨204, 0⟩] := by
  obtain ⟨s2, h, h1, _, _, _, h5, h6, h7, h8, h9⟩ :=
    serveMap_preflight asciiToUpper asciiToLower (fun _ => "") "/maps" (fun _ w => w) world []
      ⟨"OPTIONS", "https://example.org", [], false⟩ ServeState.init rfl
  exact ⟨s2, h, h1, h5 rfl, h6, h7, h8, h9⟩

/-- C16: for every request, `serveMap` emits exactly one access-log record, on each of its
three paths: the `OPTIONS` path (status 204), the parse-failure path (status 404) and the
dispatch path, where the record (status 200) follows the serving of the CGI handler.  (On
the dispatch path the parsed form has at least one value under every key.) -/
theorem serveMap_logs_once (ToUpper ToLower : String → String) (Encode : Values → String)
    (Directory : String) (ServeHTTP : Handler → ResponseWriter → ResponseWriter)
    (m : Map) (order : List String) (r : Request) (s : ServeState)
    (hparsed : r.Method ≠ "OPTIONS" → r.ParseErr = false → ∀ e ∈ r.Form, e.2 ≠ []) :
    ∃ s2 record, serveMap ToUpper ToLower Encode Directory ServeHTTP m order r s = some s2 ∧
      s2.log = s.log ++ [record] ∧
      (r.Method = "OPTIONS" → record = ⟨204, 0⟩) ∧
      (r.Method ≠ "OPTIONS" → r.ParseErr = true → record = ⟨404, 0⟩) ∧
      (r.Method ≠ "OPTIONS" → r.ParseErr = false →
        record = ⟨200, 0⟩ ∧ ∃ handler, s2.served = s.served ++ [handler]) := by
  by_cases hm : r.Method = "OPTIONS"
  · exact ⟨_, ⟨204, 0⟩,
      serveMap_of_OPTIONS ToUpper ToLower Encode Directory ServeHTTP m order r s hm, rfl,
      fun _ => rfl, fun h => absurd hm h, fun h => absurd hm h⟩
  · cases he : r.ParseErr with
    | true =>
      exact ⟨_, ⟨404, 0⟩,
        serveMap_of_ParseErr ToUpper ToLower Encode Directory ServeHTTP m order r s hm he, rfl,
        fun h => absurd h hm, fun _ _ => rfl, fun _ h => by cases h⟩
    | false =>
      obtain ⟨form, hf⟩ := serveMapForm_total ToUpper ToLower m order r.Form (hparsed hm he)
      exact ⟨_, ⟨200, 0⟩,
        serveMap_of_parsed ToUpper ToLower Encode Directory ServeHTTP m order r s hm he form hf,
        rfl, fun h => absurd h hm, fun _ h => (by cases h), fun _ _ => ⟨rfl, _, rfl⟩⟩

theorem serveMap_logs_once_witness :
    ∃ s2 record, serveMap asciiToUpper asciiToLower (fun _ => "") "/maps" (fun _ w => w) world
        ["srs"] ⟨"GET", "", [("srs", ["EPSG:900913"])], false⟩ ServeState.init = some s2 ∧
      s2.log = [record] ∧ record = ⟨200, 0⟩ := by
  obtain ⟨s2, record, h, hlog, _, _, h200⟩ :=
    serveMap_logs_once asciiToUpper asciiToLower (fun _ => "") "/maps" (fun _ w => w) world
      ["srs"] ⟨"GET", "", [("srs", ["EPSG:900913"])], false⟩ ServeState.init
      (fun _ _ => by decide)
  exact ⟨s2, record, h, hlog, (h200 (by decide) rfl).1⟩

/-- C18: for every request that is not `OPTIONS` and whose form parsing fails, `serveMap`
logs one record with status 404, writes the body `400`, sets no header (so no CORS
header), leaves the form as `ParseForm` stored it, and serves no CGI handler. -/
theorem serveMap_parse_failure (ToUpper ToLower : String → String)
    (Encode : Values → String) (Directory : String)
    (ServeHTTP : Handler → ResponseWriter → ResponseWriter)
    (m : Map) (order : List String) (r : Request) (s : ServeState)
    (hm : r.Method ≠ "OPTIONS") (he : r.ParseErr = true) :
    ∃ s2, serveMap ToUpper ToLower Encode Directory ServeHTTP m order r s = some s2 ∧
      s2.log = s.log ++ [⟨404, 0⟩] ∧
      s2.w.Body = s.w.Body ++ "400" ∧
      s2.w.Header = s.w.Header ∧
      s2.Form = some r.Form ∧
      s2.served = s.served := by
  refine ⟨_, serveMap_of_ParseErr ToUpper ToLower Encode Directory ServeHTTP m order r s hm he,
    rfl, ?_, ?_, rfl, rfl⟩
  · simp only [ResponseWriter.WriteString, WriteHeader_Body]
  · simp only [ResponseWriter.WriteString, WriteHeader_Header]

theorem serveMap_parse_failure_witness :
    ∃ s2, serveMap asciiToUpper asciiToLower (fun _ => "") "/maps" (fun _ w => w) world []
        ⟨"GET", "https://example.org", [("map", ["x"])], true⟩ ServeState.init = some s2 ∧
      s2.log = [⟨404, 0⟩] ∧ s2.w.Body = "400" ∧ s2.w.Header = [] ∧
      s2.Form = some [("map", ["x"])] ∧ s2.served = [] :=
  serveMap_parse_failure asciiToUpper asciiToLower (fun _ => "") "/maps" (fun _ w => w) world []
    ⟨"GET", "https://example.org", [("map", ["x"])], true⟩ ServeState.init (by decide) rfl

/-- C17: alias resolution depends on the iteration order of the alias table.  With
projections `A`, `B` and aliases `A: [x]`, `B: [x]`, the token `x` gives `m_A.map` when the
table is iterated `A` then `B`, and `m_B.map` when it is iterated `B` then `A`. -/
theorem Mapfile_order_dependent :
    List.Perm [("B", ["x"]), ("A", ["x"])] [("A", ["x"]), ("B", ["x"])] ∧
    Map.Mapfile ⟨"m", ["A", "B"], [("A", ["x"]), ("B", ["x"])], ""⟩ "x" = some "m_A.map" ∧
    Map.Mapfile ⟨"m", ["A", "B"], [("B", ["x"]), ("A", ["x"])], ""⟩ "x" = some "m_B.map" ∧
    Map.Mapfile ⟨"m", ["A", "B"], [("A", ["x"]), ("B", ["x"])], ""⟩ "x" ≠
      Map.Mapfile ⟨"m", ["A", "B"], [("B", ["x"]), ("A", ["x"])], ""⟩ "x" :=
  ⟨List.Perm.swap _ _ _, by decide, by decide, by decide⟩

/-- C19: for every map and every successfully parsed form (each key with at least one
value), the mapping that `serveMap` encodes into `QUERY_STRING` binds `REQUEST`,
`SERVICE`, `MAP` and `EXCEPTIONS` each to one non-empty value, and every key of the mapping
equals its own uppercase form and is bound to exactly one value.  (`strings.ToUpper` is
idempotent and fixes the four key names; `strings.ToLower` leaves `""` as it is.) -/
theorem serveMap_query_mapping (ToUpper ToLower : String → String)
    (Encode : Values → String) (Directory : String)
    (ServeHTTP : Handler → ResponseWriter → ResponseWriter)
    (hidem : ∀ s, ToUpper (ToUpper s) = ToUpper s)
    (hfix : ∀ K ∈ ["REQUEST", "SERVICE", "MAP", "EXCEPTIONS"], ToUpper K = K)
    (hempty : ToLower "" = "")
    (m : Map) (order : List String) (r : Request) (s : ServeState)
    (hm : r.Method ≠ "OPTIONS") (he : r.ParseErr = false)
    (hparsed : ∀ e ∈ r.Form, e.2 ≠ []) (hcover : ∀ e ∈ r.Form, e.1 ∈ order) :
    ∃ out s2, serveMap ToUpper ToLower Encode Directory ServeHTTP m order r s = some s2 ∧
      s2.served = s.served ++
        [⟨"/usr/bin/mapserv", Directory, ["QUERY_STRING=" ++ Encode out]⟩] ∧
      (∀ K ∈ ["REQUEST", "SERVICE", "MAP", "EXCEPTIONS"],
        ∃ x, Values.lookup out K = some [x] ∧ x ≠ "") ∧
      (∀ k vs, Values.lookup out k = some vs → ToUpper k = k ∧ ∃ x, vs = [x]) := by
  obtain ⟨v1, hv1, _, hnormal⟩ := normalizeKeys_normal ToUpper hidem order r.Form hparsed hcover
  obtain ⟨mapfile, out, hmf, hout, hlk⟩ :=
    serveMapForm_lookup ToUpper ToLower m order r.Form v1 hv1
  have hsingle : ∀ k vs, Values.lookup v1 k = some vs → ∃ x, vs = [x] :=
    fun k vs h => (hnormal k vs h).2
  have hinvEmpty : invalidException ToLower "" = true := by
    cases hc : invalidException ToLower "" with
    | true => rfl
    | false =>
      have := (invalidException_eq_false_iff ToLower "").mp hc
      rw [hempty] at this
      revert this
      decide
  -- the four special keys
  have hE : ∃ x, Values.lookup out "EXCEPTIONS" = some [x] ∧ x ≠ "" := by
    have h := hlk "EXCEPTIONS"
    rw [if_pos rfl] at h
    by_cases hinv : invalidException ToLower (Values.Get v1 "EXCEPTIONS") = true
    · rw [if_pos hinv] at h
      exact ⟨"xml", h, by decide⟩
    · rw [if_neg hinv] at h
      have hg : Values.Get v1 "EXCEPTIONS" ≠ "" := fun e => hinv (by rw [e]; exact hinvEmpty)
      obtain ⟨x, hx, hxne, _⟩ := lookup_of_Get_ne_empty v1 "EXCEPTIONS" hsingle hg
      exact ⟨x, by rw [h, hx], hxne⟩
  have hM : ∃ x, Values.lookup out "MAP" = some [x] ∧ x ≠ "" := by
    have h := hlk "MAP"
    rw [if_neg (by decide), if_pos rfl] at h
    exact ⟨mapfile, h, Mapfile_ne_empty m _ _ hmf⟩
  have hS : ∃ x, Values.lookup out "SERVICE" = some [x] ∧ x ≠ "" := by
    have h := hlk "SERVICE"
    rw [if_neg (by decide), if_neg (by decide), if_pos rfl] at h
    by_cases hg : Values.Get v1 "SERVICE" = ""
    · rw [if_pos hg] at h
      exact ⟨"WMS", h, by decide⟩
    · rw [if_neg hg] at h
      obtain ⟨x, hx, hxne, _⟩ := lookup_of_Get_ne_empty v1 "SERVICE" hsingle hg
      exact ⟨x, by rw [h, hx], hxne⟩
  have hR : ∃ x, Values.lookup out "REQUEST" = some [x] ∧ x ≠ "" := by
    have h := hlk "REQUEST"
    rw [if_neg (by decide), if_neg (by decide), if_neg (by decide), if_pos rfl] at h
    by_cases hg : Values.Get v1 "REQUEST" = ""
    · rw [if_pos hg] at h
      exact ⟨"GetCapabilities", h, by decide⟩
    · rw [if_neg hg] at h
      obtain ⟨x, hx, hxne, _⟩ := lookup_of_Get_ne_empty v1 "REQUEST" hsingle hg
      exact ⟨x, by rw [h, hx], hxne⟩
  have hfour : ∀ K ∈ ["REQUEST", "SERVICE", "MAP", "EXCEPTIONS"],
      ∃ x, Values.lookup out K = some [x] ∧ x ≠ "" := by
    intro K hK
    simp only [List.mem_cons, List.mem_singleton, List.not_mem_nil, or_false] at hK
    rcases hK with rfl | rfl | rfl | rfl
    · exact hR
    · exact hS
    · exact hM
    · exact hE
  refine ⟨out, _,
    serveMap_of_parsed ToUpper ToLower Encode Directory ServeHTTP m order r s hm he out hout,
    rfl, hfour, ?_⟩
  intro k vs hk
  by_cases hspecial : k ∈ ["REQUEST", "SERVICE", "MAP", "EXCEPTIONS"]
  · obtain ⟨x, hx, _⟩ := hfour k hspecial
    rw [hx] at hk
    cases hk
    exact ⟨hfix k hspecial, x, rfl⟩
  · simp only [List.mem_cons, List.mem_singleton, List.not_mem_nil, or_false, not_or]
      at hspecial
    obtain ⟨k1, k2, k3, k4⟩ := hspecial
    rw [hlk, if_neg k4, if_neg k3, if_neg k2, if_neg k1] at hk
    exact hnormal k vs hk

theorem serveMap_query_mapping_witness :
    ∃ out s2, serveMap asciiToUpper asciiToLower (fun _ => "") "/maps" (fun _ w => w) world
        ["srs", "Layers"] ⟨"GET", "", [("srs", ["EPSG:900913"]), ("Layers", ["a", "b"])], false⟩
        ServeState.init = some s2 ∧
      s2.served = ServeState.init.served ++
        [⟨"/usr/bin/mapserv", "/maps", ["QUERY_STRING=" ++ (fun _ => "") out]⟩] ∧
      (∀ K ∈ ["REQUEST", "SERVICE", "MAP", "EXCEPTIONS"],
        ∃ x, Values.lookup out K = some [x] ∧ x ≠ "") ∧
      (∀ k vs, Values.lookup out k = some vs → asciiToUpper k = k ∧ ∃ x, vs = [x]) :=
  serveMap_query_mapping asciiToUpper asciiToLower (fun _ => "") "/maps" (fun _ w => w)
    asciiToUpper_idem (by decide) (by decide) world ["srs", "Layers"]
    ⟨"GET", "", [("srs", ["EPSG:900913"]), ("Layers", ["a", "b"])], false⟩ ServeState.init
    (by decide) rfl (by decide) (by decide)

/-- C20: `normalizeKeys` depends on the processing order when keys collide.  The form with
`srs = [a]` and `sRs = [b]`, two distinct keys with the same uppercase form, keeps `b`
under `SRS` when `srs` is processed first and `a` when `sRs` is processed first, and the
`MAP` value chosen by `serveMap` differs accordingly. -/
theorem normalizeKeys_order_dependent (ToUpper ToLower : String → String)
    (h1 : ToUpper "srs" = "SRS") (h2 : ToUpper "sRs" = "SRS") :
    List.Perm ["sRs", "srs"] ["srs", "sRs"] ∧
    ∃ r1 r2 out1 out2,
      normalizeKeys ToUpper ["srs", "sRs"] [("srs", ["a"]), ("sRs", ["b"])] = some r1 ∧
      normalizeKeys ToUpper ["sRs", "srs"] [("srs", ["a"]), ("sRs", ["b"])] = some r2 ∧
      Values.lookup r1 "SRS" = some ["b"] ∧
      Values.lookup r2 "SRS" = some ["a"] ∧
      serveMapForm ToUpper ToLower ⟨"m", ["a", "b"], [], ""⟩ ["srs", "sRs"]
        [("srs", ["a"]), ("sRs", ["b"])] = some out1 ∧
      serveMapForm ToUpper ToLower ⟨"m", ["a", "b"], [], ""⟩ ["sRs", "srs"]
        [("srs", ["a"]), ("sRs", ["b"])] = some out2 ∧
      Values.lookup out1 "MAP" = some ["m_b.map"] ∧
      Values.lookup out2 "MAP" = some ["m_a.map"] := by
  refine ⟨List.Perm.swap _ _ _, ?_⟩
  have e1 : normalizeKeys ToUpper ["srs", "sRs"] [("srs", ["a"]), ("sRs", ["b"])]
      = some [("SRS", ["b"])] := by
    rw [normalizeKeys_cons_of_visit ToUpper "srs" _ _ _
      (visit_of_cons ToUpper _ "srs" "a" [] (by decide)), h1]
    rw [normalizeKeys_cons_of_visit ToUpper "sRs" _ _ _
      (visit_of_cons ToUpper _ "sRs" "b" [] (by decide)), h2]
    simp only [normalizeKeys, Option.some.injEq]
    decide
  have e2 : normalizeKeys ToUpper ["sRs", "srs"] [("srs", ["a"]), ("sRs", ["b"])]
      = some [("SRS", ["a"])] := by
    rw [normalizeKeys_cons_of_visit ToUpper "sRs" _ _ _
      (visit_of_cons ToUpper _ "sRs" "b" [] (by decide)), h2]
    rw [normalizeKeys_cons_of_visit ToUpper "srs" _ _ _
      (visit_of_cons ToUpper _ "srs" "a" [] (by decide)), h1]
    simp only [normalizeKeys, Option.some.injEq]
    decide
  obtain ⟨mf1, out1, hmf1, hout1, hlk1⟩ := serveMapForm_lookup ToUpper ToLower
    ⟨"m", ["a", "b"], [], ""⟩ ["srs", "sRs"] [("srs", ["a"]), ("sRs", ["b"])] _ e1
  obtain ⟨mf2, out2, hmf2, hout2, hlk2⟩ := serveMapForm_lookup ToUpper ToLower
    ⟨"m", ["a", "b"], [], ""⟩ ["sRs", "srs"] [("srs", ["a"]), ("sRs", ["b"])] _ e2
  have g1 : Map.Mapfile ⟨"m", ["a", "b"], [], ""⟩ (Values.Get [("SRS", ["b"])] "SRS")
      = some "m_b.map" := by decide
  have g2 : Map.Mapfile ⟨"m", ["a", "b"], [], ""⟩ (Values.Get [("SRS", ["a"])] "SRS")
      = some "m_a.map" := by decide
  rw [g1] at hmf1
  rw [g2] at hmf2
  cases hmf1
  cases hmf2
  refine ⟨_, _, out1, out2, e1, e2, by decide, by decide, hout1, hout2, ?_, ?_⟩
  · rw [hlk1]; simp
  · rw [hlk2]; simp

theorem normalizeKeys_order_dependent_witness :
    ∃ r1 r2,
      normalizeKeys asciiToUpper ["srs", "sRs"] [("srs", ["a"]), ("sRs", ["b"])] = some r1 ∧
      normalizeKeys asciiToUpper ["sRs", "srs"] [("srs", ["a"]), ("sRs", ["b"])] = some r2 ∧
      Values.Get r1 "SRS" ≠ Values.Get r2 "SRS" := by
  obtain ⟨_, r1, r2, _, _, e1, e2, l1, l2, _⟩ :=
    normalizeKeys_order_dependent asciiToUpper asciiToLower (by decide) (by decide)
  refine ⟨r1, r2, e1, e2, ?_⟩
  rw [Get_of_lookup_cons r1 "SRS" "b" [] l1, Get_of_lookup_cons r2 "SRS" "a" [] l2]
  decide

end MapWrap
